import Mathlib

/-!
Verification of the CMDBSvc embedded document-store core: the in-memory
`MemoryCollection` (files `app/db/adapters/memory_collection.py` and
`app/db/collection_operator/memory_collection.py`, which share the same
insert/find/index core; the adapters file adds update/delete, the
collection_operator file adds the aggregation pipeline and cursor-based
`find`), together with the `ListCursor` of
`app/db/collection_operator/cursor_interface.py`.

Python values stored in documents are modelled by the tagged type `Value`
(floats are omitted: no verified property involves them, and Python's
bool-is-an-int arithmetic quirk is likewise outside the fragment the spec
exercises).  Python dicts are modelled as insertion-ordered association
lists with unique keys, which is exactly the observable behaviour of a
dict: writing an existing key replaces its value in place, writing a new
key appends.  `deepcopy` on read/write is the identity in this pure model.
Python exceptions are modelled by `Except`; because `update_many` commits
documents while it iterates, its error case carries the collection state
at the moment of the raise.
-/

inductive Value where
  | vnull : Value
  | vbool : Bool → Value
  | vint : Int → Value
  | vstr : String → Value
  | varr : List Value → Value
  | vdoc : List (String × Value) → Value

/-- A Python dict of field name to value, in insertion order. -/
abbrev Doc := List (String × Value)

mutual

/-- Structural equality of values, as Python `==` computes it on the
modelled fragment (None, bool, int, str, list, dict). -/
def Value.beq : Value → Value → Bool
  | .vnull, .vnull => true
  | .vbool a, .vbool b => a == b
  | .vint a, .vint b => a == b
  | .vstr a, .vstr b => a == b
  | .varr a, .varr b => Value.beqList a b
  | .vdoc a, .vdoc b => Value.beqFields a b
  | _, _ => false

def Value.beqList : List Value → List Value → Bool
  | [], [] => true
  | x :: xs, y :: ys => Value.beq x y && Value.beqList xs ys
  | _, _ => false

def Value.beqFields : List (String × Value) → List (String × Value) → Bool
  | [], [] => true
  | (k₁, v₁) :: xs, (k₂, v₂) :: ys => k₁ == k₂ && Value.beq v₁ v₂ && Value.beqFields xs ys
  | _, _ => false

end

mutual

/-- Python `<` on same-kind values (ints, strings, bools, lists
lexicographically).  A cross-kind comparison raises TypeError in Python;
it is unreachable under every theorem's hypotheses and returns `false`
here. -/
def Value.lt : Value → Value → Bool
  | .vint a, .vint b => a < b
  | .vstr a, .vstr b => decide (a < b)
  | .vbool a, .vbool b => !a && b
  | .varr a, .varr b => Value.ltList a b
  | _, _ => false

def Value.ltList : List Value → List Value → Bool
  | [], [] => false
  | [], _ :: _ => true
  | _ :: _, [] => false
  | x :: xs, y :: ys => if Value.beq x y then Value.ltList xs ys else Value.lt x y

end

/-- Dict read: first (unique) binding of the key, if present. -/
def getField (d : Doc) (k : String) : Option Value :=
  (d.find? (fun p => p.1 == k)).map (·.2)

/-- Python `field in doc`. -/
def hasField (d : Doc) (k : String) : Bool :=
  d.any (fun p => p.1 == k)

/-- Python `doc.get(field)`: an absent field reads as None. -/
def pyGet (d : Doc) (k : String) : Value :=
  (getField d k).getD .vnull

/-- Dict write `m[k] = v` over an association list with keys of any type:
replace the binding in place if the key exists, append otherwise. -/
def assocSet {β : Type} (l : List (String × β)) (k : String) (v : β) : List (String × β) :=
  match l with
  | [] => [(k, v)]
  | (k', v') :: rest => if k' == k then (k, v) :: rest else (k', v') :: assocSet rest k v

/-- Dict write on a document. -/
def setField (d : Doc) (k : String) (v : Value) : Doc :=
  assocSet d k v

/-- Python `doc.pop(field, None)`: drop the binding of the key if present. -/
def removeField (d : Doc) (k : String) : Doc :=
  match d with
  | [] => []
  | (k', v') :: rest => if k' == k then rest else (k', v') :: removeField rest k

/-- Result of `insert_one` (class InsertOneResult): the assigned id. -/
structure InsertOneResult where
  inserted_id : String
deriving Repr

/-- Result of the update operations (class UpdateResult). -/
structure UpdateResult where
  matched_count : Nat
  modified_count : Nat
deriving Repr

/-- Result of the delete operations (class DeleteResult). -/
structure DeleteResult where
  deleted_count : Nat
deriving Repr

/-- The in-memory collection: `_documents` is the id-keyed, insertion-ordered
document dict, `_indexes` maps an indexed field to its observed-value set
(a Python set, modelled as a duplicate-free list), `_unique_indexes` is the
set of unique-indexed field names. -/
structure MemoryCollection where
  collection_name : String
  documents : List (String × Doc)
  indexes : List (String × List Value)
  unique_indexes : List String

/-- MemoryCollection._matches_filter: equality-only, flat, conjunctive —
every filter key must be present in the document with an equal value. -/
def matches_filter (document : Doc) (filter_dict : Doc) : Bool :=
  filter_dict.all (fun p =>
    match getField document p.1 with
    | some dv => Value.beq dv p.2
    | none => false)

/-- Python `set.add` on an observed-value set modelled as a dedup list. -/
def valueSetAdd (s : List Value) (v : Value) : List Value :=
  if s.any (fun w => Value.beq w v) then s else s ++ [v]

/-- MemoryCollection.insert_one.  The fresh uuid4 string is passed in as
`doc_id`.  The clone of the input gets `_id` attached, then every
unique-indexed field present in the clone is scanned against all stored
documents (via `existing_doc.get(field)`, so an absent field reads as
None); a hit raises ValueError before any state is touched, hence the
error case returns the unchanged collection.  Otherwise the clone is
stored and each index's observed-value set is extended. -/
def insert_one (c : MemoryCollection) (document : Doc) (doc_id : String) :
    Except (String × MemoryCollection) (InsertOneResult × MemoryCollection) :=
  let doc_copy := setField document "_id" (.vstr doc_id)
  if c.unique_indexes.any (fun field =>
      match getField doc_copy field with
      | some value => c.documents.any (fun p => Value.beq (pyGet p.2 field) value)
      | none => false) then
    .error ("Duplicate key error", c)
  else
    .ok (⟨doc_id⟩,
      { c with
        documents := assocSet c.documents doc_id doc_copy
        indexes := c.indexes.map (fun p =>
          if hasField doc_copy p.1 then (p.1, valueSetAdd p.2 (pyGet doc_copy p.1)) else p) })

/-- MemoryCollection.find_one: first stored document (in insertion order)
matching the filter, as an independent copy. -/
def find_one (c : MemoryCollection) (filter_dict : Doc) : Option Doc :=
  (c.documents.find? (fun p => matches_filter p.2 filter_dict)).map (·.2)

/-- The update operators recognised by MemoryCollection._apply_update. -/
def recognizedOps : List String := ["$set", "$unset", "$inc", "$addToSet", "$pull"]

/-- One recognised operator application inside _apply_update.  `none`
models a Python TypeError/AttributeError (a non-dict operand for the four
operators that call `.items()`, `$inc` on a non-int, `$addToSet` on a
non-list field); those raises propagate out of the update call.  `$unset`
is different: it iterates its operand directly (`for field in updates:
doc.pop(field, None)`), so a dict operand pops its keys, a list operand
pops each string element (hashable non-string elements are not keys of a
string-keyed document and pop nothing; unhashable list/dict elements make
`pop` raise), a string operand iterates its characters and pops the
single-character fields, and None/bool/int operands are not iterable and
raise.  (Python's treatment of a string field under `$addToSet`
membership, and of bools as ints under `$inc`, are corners no verified
property reaches.) -/
def applyOperator (doc : Doc) (op : String) (operand : Value) : Option Doc :=
  if op == "$set" then
    match operand with
    | .vdoc updates => some (updates.foldl (fun d p => setField d p.1 p.2) doc)
    | _ => none
  else if op == "$unset" then
    match operand with
    | .vdoc updates => some (updates.foldl (fun d p => removeField d p.1) doc)
    | .varr items =>
      items.foldlM (fun d w =>
        match w with
        | .vstr s => some (removeField d s)
        | .vnull => some d
        | .vbool _ => some d
        | .vint _ => some d
        | _ => none) doc
    | .vstr s => some (s.data.foldl (fun d c => removeField d (String.mk [c])) doc)
    | _ => none
  else if op == "$inc" then
    match operand with
    | .vdoc updates =>
      updates.foldlM (fun d p =>
        match (getField d p.1).getD (.vint 0), p.2 with
        | .vint cur, .vint inc => some (setField d p.1 (.vint (cur + inc)))
        | _, _ => none) doc
    | _ => none
  else if op == "$addToSet" then
    match operand with
    | .vdoc updates =>
      updates.foldlM (fun d p =>
        match (getField d p.1).getD (.varr []) with
        | .varr items =>
          if items.any (fun w => Value.beq w p.2) then some (setField d p.1 (.varr items))
          else some (setField d p.1 (.varr (items ++ [p.2])))
        | _ => none) doc
    | _ => none
  else if op == "$pull" then
    match operand with
    | .vdoc updates =>
      some (updates.foldl (fun d p =>
        match getField d p.1 with
        | some (.varr items) => setField d p.1 (.varr (items.filter (fun w => !Value.beq w p.2)))
        | _ => d) doc)
    | _ => none
  else none

/-- Loop body of MemoryCollection._apply_update: recognised operator keys
are applied in spec order until the first unrecognised key, at which point
the entire original spec is merged verbatim over the document
(`doc.update(update_dict)`) and the loop breaks. -/
def applyUpdateAux (orig : Doc) (doc : Doc) : Doc → Option Doc
  | [] => some doc
  | (op, operand) :: rest =>
    if recognizedOps.contains op then
      (applyOperator doc op operand).bind (fun d => applyUpdateAux orig d rest)
    else
      some (orig.foldl (fun d p => setField d p.1 p.2) doc)

/-- MemoryCollection._apply_update on a deep copy of the document. -/
def apply_update (document : Doc) (update_dict : Doc) : Option Doc :=
  applyUpdateAux update_dict document update_dict

/-- The unique-constraint re-scan performed before committing an update:
for every unique-indexed field present in the updated document whose value
changed from the original (read via `.get`, None for absent), every other
stored document of `c` is scanned for an equal value (again via `.get`). -/
def uniqueViolation (c : MemoryCollection) (doc_id : String)
    (original_doc : Doc) (updated_doc : Doc) : Bool :=
  c.unique_indexes.any (fun field =>
    match getField updated_doc field with
    | some value =>
      !Value.beq value (pyGet original_doc field) &&
        c.documents.any (fun p => p.1 != doc_id && Value.beq (pyGet p.2 field) value)
    | none => false)

/-- Loop of MemoryCollection.update_one over the stored documents: the
first filter match is updated, checked against the unique indexes, and
committed; every raise happens before the commit, so the error case
carries the untouched collection. -/
def updateOneLoop (c : MemoryCollection) (filter_dict : Doc) (update_dict : Doc) :
    List (String × Doc) → Except (String × MemoryCollection) (UpdateResult × MemoryCollection)
  | [] => .ok (⟨0, 0⟩, c)
  | (doc_id, doc) :: rest =>
    if matches_filter doc filter_dict then
      match apply_update doc update_dict with
      | none => .error ("TypeError", c)
      | some updated_doc =>
        if uniqueViolation c doc_id doc updated_doc then
          .error ("Duplicate key error", c)
        else
          .ok (⟨1, if Value.beqFields updated_doc doc then 0 else 1⟩,
            { c with documents := assocSet c.documents doc_id updated_doc })
    else updateOneLoop c filter_dict update_dict rest

/-- MemoryCollection.update_one. -/
def update_one (c : MemoryCollection) (filter_dict : Doc) (update_dict : Doc) :
    Except (String × MemoryCollection) (UpdateResult × MemoryCollection) :=
  updateOneLoop c filter_dict update_dict c.documents

/-- Loop of MemoryCollection.update_many: it iterates over a snapshot
`list(self._documents.items())` of the original items, committing each
matching document's update into the current collection as it goes; the
unique scan reads the current (partially updated) collection.  A raise
mid-loop therefore leaves the earlier commits in place: the error case
carries the collection state at the moment of the raise. -/
def updateManyLoop (filter_dict : Doc) (update_dict : Doc) :
    List (String × Doc) → MemoryCollection → Nat → Nat →
    Except (String × MemoryCollection) (UpdateResult × MemoryCollection)
  | [], cur, matched, modified => .ok (⟨matched, modified⟩, cur)
  | (doc_id, doc) :: rest, cur, matched, modified =>
    if matches_filter doc filter_dict then
      match apply_update doc update_dict with
      | none => .error ("TypeError", cur)
      | some updated_doc =>
        if uniqueViolation cur doc_id doc updated_doc then
          .error ("Duplicate key error", cur)
        else
          updateManyLoop filter_dict update_dict rest
            { cur with documents := assocSet cur.documents doc_id updated_doc }
            (matched + 1)
            (modified + if Value.beqFields updated_doc doc then 0 else 1)
    else updateManyLoop filter_dict update_dict rest cur matched modified

/-- MemoryCollection.update_many. -/
def update_many (c : MemoryCollection) (filter_dict : Doc) (update_dict : Doc) :
    Except (String × MemoryCollection) (UpdateResult × MemoryCollection) :=
  updateManyLoop filter_dict update_dict c.documents c 0 0

/-- Loop of MemoryCollection.delete_one: remove the first match. -/
def deleteOneLoop (filter_dict : Doc) :
    List (String × Doc) → DeleteResult × List (String × Doc)
  | [] => (⟨0⟩, [])
  | (doc_id, doc) :: rest =>
    if matches_filter doc filter_dict then (⟨1⟩, rest)
    else
      let r := deleteOneLoop filter_dict rest
      (r.1, (doc_id, doc) :: r.2)

/-- MemoryCollection.delete_one. -/
def delete_one (c : MemoryCollection) (filter_dict : Doc) :
    DeleteResult × MemoryCollection :=
  let r := deleteOneLoop filter_dict c.documents
  (r.1, { c with documents := r.2 })

/-- Python `del m[k]` on the association list (the key occurs once). -/
def assocRemove {β : Type} (l : List (String × β)) (k : String) : List (String × β) :=
  match l with
  | [] => []
  | (k', v') :: rest => if k' == k then rest else (k', v') :: assocRemove rest k

/-- MemoryCollection.delete_many: collect the ids of all matches, then
delete each collected id. -/
def delete_many (c : MemoryCollection) (filter_dict : Doc) :
    DeleteResult × MemoryCollection :=
  let to_delete := (c.documents.filter (fun p => matches_filter p.2 filter_dict)).map (·.1)
  (⟨to_delete.length⟩,
    { c with documents := to_delete.foldl (fun docs i => assocRemove docs i) c.documents })

/-- The ListCursor of cursor_interface.py: a materialized result list with
recorded skip and limit counts.  Negative arguments to skip/limit are
rejected by the real driver and outside scope, so counts are naturals. -/
structure ListCursor where
  data : List Doc
  skip_count : Nat
  limit_count : Option Nat

/-- ListCursor construction inside MemoryCollection.find. -/
def ListCursor.fromList (data : List Doc) : ListCursor :=
  ⟨data, 0, none⟩

/-- ListCursor.skip: record the skip count, return the cursor. -/
def ListCursor.skip (c : ListCursor) (n : Nat) : ListCursor :=
  { c with skip_count := n }

/-- ListCursor.limit: record the limit count, return the cursor. -/
def ListCursor.limit (c : ListCursor) (n : Nat) : ListCursor :=
  { c with limit_count := n }

/-- The sequence yielded by one call of `ListCursor.__iter__`: the
`data[start:end]` slice, with start the skip count and end
start + limit when a limit was recorded.  Each Python `for` loop over
the cursor calls `__iter__` afresh; the cursor object itself is never
mutated by iteration, so every call yields this same slice. -/
def ListCursor.iterate (c : ListCursor) : List Doc :=
  match c.limit_count with
  | none => c.data.drop c.skip_count
  | some m => (c.data.drop c.skip_count).take m

/-- MemoryCollection.find (collection_operator variant): copies of all
matching documents, wrapped in a fresh ListCursor. -/
def find (c : MemoryCollection) (filter_dict : Doc) : ListCursor :=
  ListCursor.fromList
    ((c.documents.filter (fun p => matches_filter p.2 filter_dict)).map (·.2))

/-- Sort key of one document under a `$sort` spec, as built inside
MemoryCollection.aggregate: per field, `doc.get(field, 0)`, None replaced
by the empty string, and the value negated when the direction is not 1
and the value is numeric. -/
def sortKey (spec : Doc) (doc : Doc) : List Value :=
  spec.map (fun p =>
    let v0 := (getField doc p.1).getD (.vint 0)
    let v := match v0 with
      | .vnull => .vstr ""
      | w => w
    if Value.beq p.2 (.vint 1) then v
    else match v with
      | .vint n => .vint (-n)
      | w => w)

/-- Python list comparison on sort keys: lexicographic, a strict prefix
compares smaller. -/
def keyListLe : List Value → List Value → Bool
  | [], _ => true
  | _ :: _, [] => false
  | x :: xs, y :: ys => if Value.beq x y then keyListLe xs ys else Value.lt x y

/-- The precedes-or-ties relation realised by `list.sort(key=..., reverse=r)`:
with `reverse=True` the comparisons are reversed while ties keep their
original relative order (Timsort is stable). -/
def pySortLe (spec : Doc) (rev : Bool) (a b : Doc) : Bool :=
  if rev then keyListLe (sortKey spec b) (sortKey spec a)
  else keyListLe (sortKey spec a) (sortKey spec b)

/-- Stable insertion of an element arriving after every element of the
list: it goes before the first element it strictly must precede, i.e.
before the first `b` with `le a b` (ties keep `a` before `b` only when
`a` was earlier, which the sort below arranges). -/
def stableIns (le : Doc → Doc → Bool) (a : Doc) : List Doc → List Doc
  | [] => [a]
  | b :: l => if le a b then a :: b :: l else b :: stableIns le a l

/-- A stable sort with the given precedes-or-ties relation.  For a
relation that is total and transitive on the list's elements (Python
raises TypeError otherwise), a stable sort's output is unique, so this
models `list.sort`. -/
def stableSort (le : Doc → Doc → Bool) : List Doc → List Doc
  | [] => []
  | b :: l => stableIns le b (stableSort le l)

/-- The `$project` stage body of MemoryCollection.aggregate for one
document: per spec entry, an inclusion copies that field if present; an
exclusion of a non-_id field copies every other field of the input
document (re-adding fields removed by other exclusion entries); finally
`_id` is copied back unless the spec maps it to something other than 1. -/
def projectDoc (stage_config : Doc) (doc : Doc) : Doc :=
  let projected := stage_config.foldl (fun acc p =>
    if Value.beq p.2 (.vint 1) then
      match getField doc p.1 with
      | some v => setField acc p.1 v
      | none => acc
    else if Value.beq p.2 (.vint 0) && p.1 != "_id" then
      doc.foldl (fun acc2 q => if q.1 == p.1 then acc2 else setField acc2 q.1 q.2) acc
    else acc) []
  if !hasField stage_config "_id" || Value.beq (pyGet stage_config "_id") (.vint 1) then
    match getField doc "_id" with
    | some v => setField projected "_id" v
    | none => projected
  else projected

/-- Python `s.startswith("$")`: the reference-marker test of the `$group`
stage, phrased on the character list so it reduces definitionally. -/
def startsWithDollar (s : String) : Bool :=
  match s.data with
  | c :: _ => c == '$'
  | [] => false

/-- Python `s[1:]`: drop the reference marker. -/
def dropFirstChar (s : String) : String :=
  ⟨s.data.drop 1⟩

/-- Group key selected by `spec._id` inside the `$group` stage: absent or
None means the single key None; a string starting with `$` is a field
reference read with `doc.get` (None when absent); anything else is a
literal. -/
def groupKeyOf (group_id : Option Value) (doc : Doc) : Value :=
  match group_id with
  | none => .vnull
  | some .vnull => .vnull
  | some (.vstr s) =>
    if startsWithDollar s then pyGet doc (dropFirstChar s) else .vstr s
  | some v => v

/-- Bucketing of the `$group` stage: documents are appended to their
key's bucket, buckets appear in order of first occurrence (Python dict
insertion order). -/
def addToGroups (groups : List (Value × List Doc)) (key : Value) (doc : Doc) :
    List (Value × List Doc) :=
  match groups with
  | [] => [(key, [doc])]
  | (k, ds) :: rest =>
    if Value.beq k key then (k, ds ++ [doc]) :: rest
    else (k, ds) :: addToGroups rest key doc

/-- The `$sum` accumulator over a field reference: numeric (int) values
are summed, everything else (including absent fields) is skipped. -/
def sumField (group_docs : List Doc) (field_name : String) : Int :=
  group_docs.foldl (fun s doc =>
    match getField doc field_name with
    | some (.vint n) => s + n
    | _ => s) 0

/-- One output document of the `$group` stage: the group key under `_id`,
then per non-_id spec entry whose operation is a dict, the first
operator key is evaluated: `$sum` over the literal 1 and `$count` count
the group's documents, `$sum` over a `$`-reference sums its numeric
values; anything else assigns nothing. -/
def groupResult (stage_config : Doc) (group_key : Value) (group_docs : List Doc) : Doc :=
  stage_config.foldl (fun acc p =>
    if p.1 == "_id" then acc
    else match p.2 with
      | .vdoc ((op_name, op_field) :: _) =>
        if op_name == "$sum" then
          if Value.beq op_field (.vint 1) then
            setField acc p.1 (.vint group_docs.length)
          else match op_field with
            | .vstr s =>
              if startsWithDollar s then
                setField acc p.1 (.vint (sumField group_docs (dropFirstChar s)))
              else acc
            | _ => acc
        else if op_name == "$count" then
          setField acc p.1 (.vint group_docs.length)
        else acc
      | _ => acc) [("_id", group_key)]

/-- One pipeline stage of MemoryCollection.aggregate applied to the
current result list.  The stage name is the stage document's first key.
Unsupported stage names are skipped with a warning.  Corners where the
Python would raise (an empty stage document, a non-dict stage config
where `.items()` is called, cross-kind sort comparisons, an unhashable
group key) are left as the identity; no verified property reaches them. -/
def aggApplyStage (results : List Doc) (stage : Doc) : List Doc :=
  match stage with
  | [] => results
  | (stage_name, stage_config) :: _ =>
    if stage_name == "$match" then
      match stage_config with
      | .vdoc f => results.filter (fun doc => matches_filter doc f)
      | _ => results
    else if stage_name == "$sort" then
      match stage_config with
      | .vdoc spec =>
        stableSort (pySortLe spec (spec.any (fun p => Value.beq p.2 (.vint (-1))))) results
      | _ => results
    else if stage_name == "$limit" then
      match stage_config with
      | .vint n => results.take n.toNat
      | _ => results
    else if stage_name == "$skip" then
      match stage_config with
      | .vint n => results.drop n.toNat
      | _ => results
    else if stage_name == "$project" then
      match stage_config with
      | .vdoc spec => results.map (projectDoc spec)
      | _ => results
    else if stage_name == "$group" then
      match stage_config with
      | .vdoc spec =>
        let gid := getField spec "_id"
        let groups := results.foldl (fun gs doc => addToGroups gs (groupKeyOf gid doc) doc) []
        groups.map (fun g => groupResult spec g.1 g.2)
      | _ => results
    else if stage_name == "$count" then
      match stage_config with
      | .vstr s => [[(s, .vint results.length)]]
      | _ => [[("count", .vint results.length)]]
    else results

/-- MemoryCollection.aggregate: every stage consumes the previous list,
starting from copies of all stored documents. -/
def aggregate (c : MemoryCollection) (pipeline : List Doc) : List Doc :=
  pipeline.foldl aggApplyStage (c.documents.map (·.2))

/-- One collection operation, for reasoning about operation sequences.
The uuid4 string an insert would draw is carried as data. -/
inductive Op where
  | ins : Doc → String → Op
  | upd1 : Doc → Doc → Op
  | updN : Doc → Doc → Op
  | del1 : Doc → Op
  | delN : Doc → Op

/-- The collection state after one operation; a raising operation leaves
the state it raised in (for update_many, the partially updated one). -/
def applyOp (c : MemoryCollection) : Op → MemoryCollection
  | .ins d i =>
    match insert_one c d i with
    | .ok r => r.2
    | .error e => e.2
  | .upd1 f u =>
    match update_one c f u with
    | .ok r => r.2
    | .error e => e.2
  | .updN f u =>
    match update_many c f u with
    | .ok r => r.2
    | .error e => e.2
  | .del1 f => (delete_one c f).2
  | .delN f => (delete_many c f).2

/-- The collection state after a sequence of operations. -/
def runOps (c : MemoryCollection) (ops : List Op) : MemoryCollection :=
  ops.foldl applyOp c

/-- Whether a recognised operator's operand can never write or remove the
reserved `_id` field when applied: a dict operand must not list `_id`
among its keys, and a `$unset` list operand must not contain the string
"_id".  (A `$unset` string operand iterates its characters, which pop
single-character fields and can never reach `_id`; operands on which the
operator raises impose no condition.) -/
def operandAvoidsId (op : String) (v : Value) : Bool :=
  if op == "$unset" then
    match v with
    | .vdoc updates => updates.all (fun q => q.1 != "_id")
    | .varr items => items.all (fun w => !Value.beq w (.vstr "_id"))
    | _ => true
  else if recognizedOps.contains op then
    match v with
    | .vdoc updates => updates.all (fun q => q.1 != "_id")
    | _ => true
  else true

/-- An update spec that never writes or removes the reserved `_id` field:
no top-level key is `_id` (the full-merge path writes all top-level keys)
and every recognised operator's operand avoids `_id`. -/
def specAvoidsId (update_dict : Doc) : Bool :=
  update_dict.all (fun p => p.1 != "_id" && operandAvoidsId p.1 p.2)

/-- An operation whose update spec (if any) avoids `_id`. -/
def Op.avoidsId : Op → Bool
  | .ins _ _ => true
  | .upd1 _ u => specAvoidsId u
  | .updN _ u => specAvoidsId u
  | .del1 _ => true
  | .delN _ => true

/-- The identifier invariant: every stored document carries its storage
key in its `_id` field, and the storage keys are pairwise distinct. -/
def IdInv (c : MemoryCollection) : Prop :=
  (∀ p ∈ c.documents, getField p.2 "_id" = some (.vstr p.1)) ∧
    (c.documents.map Prod.fst).Nodup

/-- State carried out of an operation, whether it returned or raised. -/
def outState {α : Type} :
    Except (String × MemoryCollection) (α × MemoryCollection) → MemoryCollection
  | .ok r => r.2
  | .error e => e.2

/-- Sequential application of recognised operator entries (the prefix of
an update spec before its first unrecognised key). -/
def applyOps (doc : Doc) (l : Doc) : Option Doc :=
  l.foldlM (fun d p => applyOperator d p.1 p.2) doc

theorem getField_assocSet_self {β : Type} (l : List (String × β)) (k : String) (v : β) :
    ((assocSet l k v).find? (fun p => p.1 == k)).map (·.2) = some v := by
  induction l with
  | nil => simp [assocSet]
  | cons hd tl ih =>
    by_cases h : hd.1 = k
    · simp [assocSet, h]
    · simp only [assocSet]
      rw [if_neg (by simpa using h)]
      rw [List.find?_cons_of_neg _ (by simpa using h)]
      exact ih

theorem getField_setField_self (d : Doc) (k : String) (v : Value) :
    getField (setField d k v) k = some v :=
  getField_assocSet_self d k v

theorem getField_setField_ne (d : Doc) (a k : String) (v : Value) (h : k ≠ a) :
    getField (setField d a v) k = getField d k := by
  induction d with
  | nil => simp [getField, setField, assocSet, h, (by simpa using Ne.symm h : ¬(a == k) = true)]
  | cons hd tl ih =>
    by_cases hh : hd.1 = a
    · simp only [setField, assocSet]
      rw [if_pos (by simpa using hh)]
      unfold getField
      rw [List.find?_cons_of_neg _ (by simpa using Ne.symm h),
        List.find?_cons_of_neg _ (by simp [hh]; simpa using Ne.symm h)]
    · simp only [setField, assocSet]
      rw [if_neg (by simpa using hh)]
      by_cases hk : hd.1 = k
      · unfold getField
        rw [List.find?_cons_of_pos _ (by simpa using hk),
          List.find?_cons_of_pos _ (by simpa using hk)]
      · unfold getField
        rw [List.find?_cons_of_neg _ (by simpa using hk),
          List.find?_cons_of_neg _ (by simpa using hk)]
        exact ih

theorem getField_removeField_ne (d : Doc) (a k : String) (h : k ≠ a) :
    getField (removeField d a) k = getField d k := by
  induction d with
  | nil => simp [removeField]
  | cons hd tl ih =>
    by_cases hh : hd.1 = a
    · simp only [removeField]
      rw [if_pos (by simpa using hh)]
      unfold getField
      rw [List.find?_cons_of_neg _ (by simp [hh]; simpa using Ne.symm h)]
    · simp only [removeField]
      rw [if_neg (by simpa using hh)]
      by_cases hk : hd.1 = k
      · unfold getField
        rw [List.find?_cons_of_pos _ (by simpa using hk),
          List.find?_cons_of_pos _ (by simpa using hk)]
      · unfold getField
        rw [List.find?_cons_of_neg _ (by simpa using hk),
          List.find?_cons_of_neg _ (by simpa using hk)]
        exact ih

theorem mem_assocSet {β : Type} (l : List (String × β)) (k : String) (v : β)
    (p : String × β) (h : p ∈ assocSet l k v) : p = (k, v) ∨ p ∈ l := by
  induction l with
  | nil => simpa [assocSet] using h
  | cons hd tl ih =>
    simp only [assocSet] at h
    by_cases hh : hd.1 = k
    · rw [if_pos (by simpa using hh)] at h
      rcases List.mem_cons.mp h with h1 | h1
      · exact Or.inl h1
      · exact Or.inr (List.mem_cons_of_mem _ h1)
    · rw [if_neg (by simpa using hh)] at h
      rcases List.mem_cons.mp h with h1 | h1
      · exact Or.inr (h1 ▸ List.mem_cons_self _ _)
      · rcases ih h1 with h2 | h2
        · exact Or.inl h2
        · exact Or.inr (List.mem_cons_of_mem _ h2)

theorem assocSet_of_not_mem {β : Type} (l : List (String × β)) (k : String) (v : β)
    (h : ∀ p ∈ l, p.1 ≠ k) : assocSet l k v = l ++ [(k, v)] := by
  induction l with
  | nil => simp [assocSet]
  | cons hd tl ih =>
    simp only [assocSet]
    rw [if_neg (by simpa using h hd (List.mem_cons_self _ _))]
    rw [ih (fun p hp => h p (List.mem_cons_of_mem _ hp))]
    simp

theorem map_fst_assocSet_mem {β : Type} (l : List (String × β)) (k : String) (v : β)
    (h : k ∈ l.map Prod.fst) : (assocSet l k v).map Prod.fst = l.map Prod.fst := by
  induction l with
  | nil => simp at h
  | cons hd tl ih =>
    simp only [assocSet]
    by_cases hh : hd.1 = k
    · rw [if_pos (by simpa using hh)]
      simp [hh]
    · rw [if_neg (by simpa using hh)]
      simp only [List.map_cons]
      rw [ih]
      rcases (by simpa using h : k = hd.1 ∨ k ∈ tl.map Prod.fst) with h1 | h1
      · exact absurd h1.symm hh
      · exact h1

theorem map_fst_assocSet_not_mem {β : Type} (l : List (String × β)) (k : String) (v : β)
    (h : k ∉ l.map Prod.fst) : (assocSet l k v).map Prod.fst = l.map Prod.fst ++ [k] := by
  rw [assocSet_of_not_mem]
  · simp
  · intro p hp hk
    exact h (hk ▸ List.mem_map_of_mem Prod.fst hp)

theorem assocRemove_sublist {β : Type} (l : List (String × β)) (k : String) :
    (assocRemove l k).Sublist l := by
  induction l with
  | nil => simp [assocRemove]
  | cons hd tl ih =>
    simp only [assocRemove]
    by_cases hh : hd.1 = k
    · rw [if_pos (by simpa using hh)]
      exact List.sublist_cons_self _ _
    · rw [if_neg (by simpa using hh)]
      exact ih.cons₂ hd

theorem foldl_assocRemove_sublist {β : Type} (ids : List String) (l : List (String × β)) :
    (ids.foldl (fun docs i => assocRemove docs i) l).Sublist l := by
  induction ids generalizing l with
  | nil => simp
  | cons hd tl ih =>
    simp only [List.foldl_cons]
    exact (ih (assocRemove l hd)).trans (assocRemove_sublist l hd)

theorem deleteOneLoop_sublist (f : Doc) (l : List (String × Doc)) :
    (deleteOneLoop f l).2.Sublist l := by
  induction l with
  | nil => simp [deleteOneLoop]
  | cons hd tl ih =>
    simp only [deleteOneLoop]
    by_cases h : matches_filter hd.2 f
    · rw [if_pos h]
      exact List.sublist_cons_self _ _
    · rw [if_neg h]
      exact ih.cons₂ hd

theorem Value.beq_vstr_iff (v : Value) (s : String) :
    Value.beq v (.vstr s) = true ↔ v = .vstr s := by
  cases v <;> simp [Value.beq]

theorem matches_filter_id_single (d : Doc) (i : String) :
    matches_filter d [("_id", .vstr i)] = true ↔ getField d "_id" = some (.vstr i) := by
  simp only [matches_filter, List.all_cons, List.all_nil, Bool.and_true]
  cases h : getField d "_id" with
  | none => simp
  | some dv => simp [Value.beq_vstr_iff]

theorem foldl_setField_preserves (u : Doc) (k : String) (h : ∀ p ∈ u, p.1 ≠ k) :
    ∀ d : Doc, getField (u.foldl (fun d p => setField d p.1 p.2) d) k = getField d k := by
  induction u with
  | nil => intro d; rfl
  | cons hd tl ih =>
    intro d
    simp only [List.foldl_cons]
    rw [ih (fun p hp => h p (List.mem_cons_of_mem _ hp))]
    exact getField_setField_ne d hd.1 k hd.2 (fun hk => h hd (List.mem_cons_self _ _) hk.symm)

theorem foldl_removeField_preserves (u : Doc) (k : String) (h : ∀ p ∈ u, p.1 ≠ k) :
    ∀ d : Doc, getField (u.foldl (fun d p => removeField d p.1) d) k = getField d k := by
  induction u with
  | nil => intro d; rfl
  | cons hd tl ih =>
    intro d
    simp only [List.foldl_cons]
    rw [ih (fun p hp => h p (List.mem_cons_of_mem _ hp))]
    exact getField_removeField_ne d hd.1 k (fun hk => h hd (List.mem_cons_self _ _) hk.symm)

theorem foldlM_setField_preserves (u : Doc) (k : String)
    (g : Doc → String × Value → Option Doc)
    (hg : ∀ d p d2, p ∈ u → p.1 ≠ k → g d p = some d2 → getField d2 k = getField d k)
    (h : ∀ p ∈ u, p.1 ≠ k) :
    ∀ d d2 : Doc, u.foldlM g d = some d2 → getField d2 k = getField d k := by
  induction u with
  | nil => intro d d2 hh; cases hh; rfl
  | cons hd tl ih =>
    intro d d2 hh
    simp only [List.foldlM_cons] at hh
    cases hstep : g d hd with
    | none => rw [hstep] at hh; cases hh
    | some dmid =>
      rw [hstep] at hh
      simp only [Option.bind_eq_bind, Option.some_bind] at hh
      rw [ih (fun d p d2 hp => hg d p d2 (List.mem_cons_of_mem _ hp))
        (fun p hp => h p (List.mem_cons_of_mem _ hp)) dmid d2 hh]
      exact hg d hd dmid (List.mem_cons_self _ _) (h hd (List.mem_cons_self _ _)) hstep

theorem foldl_pull_preserves (u : Doc) (k : String) (h : ∀ p ∈ u, p.1 ≠ k)
    (val : String × Value → Value → Bool) :
    ∀ d : Doc, getField (u.foldl (fun d p =>
      match getField d p.1 with
      | some (.varr items) => setField d p.1 (.varr (items.filter (fun w => !val p w)))
      | _ => d) d) k = getField d k := by
  induction u with
  | nil => intro d; rfl
  | cons hd tl ih =>
    intro d
    simp only [List.foldl_cons]
    rw [ih (fun p hp => h p (List.mem_cons_of_mem _ hp))]
    cases hcur : getField d hd.1 with
    | none => rfl
    | some w =>
      cases w with
      | varr items =>
        exact getField_setField_ne d hd.1 k _ (fun hk => h hd (List.mem_cons_self _ _) hk.symm)
      | vnull => rfl
      | vbool b => rfl
      | vint n => rfl
      | vstr s => rfl
      | vdoc a => rfl

theorem singleton_char_ne_id (c : Char) : String.mk [c] ≠ "_id" := by
  intro h
  have h2 : (String.mk [c]).data.length = ("_id" : String).data.length := by rw [h]
  have h3 : (String.mk [c]).data.length = 1 := rfl
  have h4 : ("_id" : String).data.length = 3 := rfl
  rw [h3, h4] at h2
  exact absurd h2 (by decide)

theorem foldlM_value_preserves (items : List Value) (k : String)
    (g : Doc → Value → Option Doc)
    (hg : ∀ d w dd, w ∈ items → g d w = some dd → getField dd k = getField d k) :
    ∀ d d2 : Doc, items.foldlM g d = some d2 → getField d2 k = getField d k := by
  induction items with
  | nil => intro d d2 hh; cases hh; rfl
  | cons hd tl ih =>
    intro d d2 hh
    simp only [List.foldlM_cons] at hh
    cases hstep : g d hd with
    | none => rw [hstep] at hh; cases hh
    | some dmid =>
      rw [hstep] at hh
      simp only [Option.bind_eq_bind, Option.some_bind] at hh
      rw [ih (fun d w dd hw => hg d w dd (List.mem_cons_of_mem _ hw)) dmid d2 hh]
      exact hg d hd dmid (List.mem_cons_self _ _) hstep

theorem foldl_chars_removeField_preserves (cs : List Char) (k : String)
    (hk : ∀ c : Char, String.mk [c] ≠ k) :
    ∀ d : Doc, getField (cs.foldl (fun d c => removeField d (String.mk [c])) d) k
      = getField d k := by
  induction cs with
  | nil => intro d; rfl
  | cons hd tl ih =>
    intro d
    simp only [List.foldl_cons]
    rw [ih]
    exact getField_removeField_ne d (String.mk [hd]) k (fun h => hk hd h.symm)

theorem applyOperator_preserves (doc : Doc) (op : String) (operand : Value) (k : String)
    (d2 : Doc) (h : applyOperator doc op operand = some d2)
    (hav : ∀ u, operand = Value.vdoc u → ∀ p ∈ u, p.1 ≠ k)
    (havArr : op = "$unset" → ∀ items, operand = Value.varr items →
      ∀ w ∈ items, Value.beq w (.vstr k) = false)
    (hkchar : ∀ c : Char, String.mk [c] ≠ k) :
    getField d2 k = getField doc k := by
  by_cases h1 : op = "$set"
  · subst h1
    cases operand with
    | vdoc updates =>
      simp [applyOperator] at h
      rw [← h]
      exact foldl_setField_preserves updates k (hav updates rfl) doc
    | vnull => simp [applyOperator] at h
    | vbool b => simp [applyOperator] at h
    | vint n => simp [applyOperator] at h
    | vstr s => simp [applyOperator] at h
    | varr a => simp [applyOperator] at h
  · by_cases h2 : op = "$unset"
    · subst h2
      cases operand with
      | vdoc updates =>
        simp [applyOperator] at h
        rw [← h]
        exact foldl_removeField_preserves updates k (hav updates rfl) doc
      | varr items =>
        simp only [applyOperator, show (("$unset" == "$set")) = false by simp,
          show (("$unset" == "$unset")) = true by simp, Bool.false_eq_true,
          if_false, if_true] at h
        refine foldlM_value_preserves items k _ ?_ doc d2 h
        intro d w dd hw hstep
        cases w with
        | vstr s =>
          simp only [Option.some.injEq] at hstep
          rw [← hstep]
          have hs := havArr rfl items rfl (Value.vstr s) hw
          have hs2 : s ≠ k := by
            intro hsk
            rw [hsk] at hs
            simp [Value.beq] at hs
          exact getField_removeField_ne d s k (fun hkk => hs2 hkk.symm)
        | vnull =>
          simp only [Option.some.injEq] at hstep
          rw [← hstep]
        | vbool b =>
          simp only [Option.some.injEq] at hstep
          rw [← hstep]
        | vint n =>
          simp only [Option.some.injEq] at hstep
          rw [← hstep]
        | varr a => exact Option.noConfusion hstep
        | vdoc a => exact Option.noConfusion hstep
      | vstr s =>
        simp [applyOperator] at h
        rw [← h]
        exact foldl_chars_removeField_preserves s.data k hkchar doc
      | vnull => simp [applyOperator] at h
      | vbool b => simp [applyOperator] at h
      | vint n => simp [applyOperator] at h
    · by_cases h3 : op = "$inc"
      · subst h3
        cases operand with
        | vdoc updates =>
          simp only [applyOperator, show (("$inc" == "$set")) = false by simp,
            show (("$inc" == "$unset")) = false by simp,
            show (("$inc" == "$inc")) = true by simp, Bool.false_eq_true, if_false,
            if_true] at h
          refine foldlM_setField_preserves updates k _ ?_ (hav updates rfl) doc d2 h
          intro d p dd hp hpk hstep
          cases hcur : (getField d p.1).getD (.vint 0) with
          | vint cur =>
            cases hinc : p.2 with
            | vint inc =>
              rw [hcur, hinc] at hstep
              simp only [Option.some.injEq] at hstep
              rw [← hstep]
              exact getField_setField_ne d p.1 k _ (fun hk => hpk hk.symm)
            | vnull => rw [hcur, hinc] at hstep; cases hstep
            | vbool b => rw [hcur, hinc] at hstep; cases hstep
            | vstr s => rw [hcur, hinc] at hstep; cases hstep
            | varr a => rw [hcur, hinc] at hstep; cases hstep
            | vdoc a => rw [hcur, hinc] at hstep; cases hstep
          | vnull => rw [hcur] at hstep; cases hstep
          | vbool b => rw [hcur] at hstep; cases hstep
          | vstr s => rw [hcur] at hstep; cases hstep
          | varr a => rw [hcur] at hstep; cases hstep
          | vdoc a => rw [hcur] at hstep; cases hstep
        | vnull => simp [applyOperator] at h
        | vbool b => simp [applyOperator] at h
        | vint n => simp [applyOperator] at h
        | vstr s => simp [applyOperator] at h
        | varr a => simp [applyOperator] at h
      · by_cases h4 : op = "$addToSet"
        · subst h4
          cases operand with
          | vdoc updates =>
            simp only [applyOperator, show (("$addToSet" == "$set")) = false by simp,
              show (("$addToSet" == "$unset")) = false by simp,
              show (("$addToSet" == "$inc")) = false by simp,
              show (("$addToSet" == "$addToSet")) = true by simp, Bool.false_eq_true,
              if_false, if_true] at h
            refine foldlM_setField_preserves updates k _ ?_ (hav updates rfl) doc d2 h
            intro d p dd hp hpk hstep
            cases hcur : (getField d p.1).getD (.varr []) with
            | varr items =>
              rw [hcur] at hstep
              by_cases hmem : items.any (fun w => Value.beq w p.2) = true
              · simp only [hmem, if_true, Option.some.injEq] at hstep
                rw [← hstep]
                exact getField_setField_ne d p.1 k _ (fun hk => hpk hk.symm)
              · simp only [hmem, Bool.false_eq_true, if_false, Option.some.injEq] at hstep
                rw [← hstep]
                exact getField_setField_ne d p.1 k _ (fun hk => hpk hk.symm)
            | vnull => rw [hcur] at hstep; cases hstep
            | vbool b => rw [hcur] at hstep; cases hstep
            | vint n => rw [hcur] at hstep; cases hstep
            | vstr s => rw [hcur] at hstep; cases hstep
            | vdoc a => rw [hcur] at hstep; cases hstep
          | vnull => simp [applyOperator] at h
          | vbool b => simp [applyOperator] at h
          | vint n => simp [applyOperator] at h
          | vstr s => simp [applyOperator] at h
          | varr a => simp [applyOperator] at h
        · by_cases h5 : op = "$pull"
          · subst h5
            cases operand with
            | vdoc updates =>
              simp [applyOperator] at h
              rw [← h]
              exact foldl_pull_preserves updates k (hav updates rfl)
                (fun p w => Value.beq w p.2) doc
            | vnull => simp [applyOperator] at h
            | vbool b => simp [applyOperator] at h
            | vint n => simp [applyOperator] at h
            | vstr s => simp [applyOperator] at h
            | varr a => simp [applyOperator] at h
          · simp [applyOperator, h1, h2, h3, h4, h5] at h

theorem specAvoidsId_keys (u : Doc) (h : specAvoidsId u = true) : ∀ p ∈ u, p.1 ≠ "_id" := by
  intro p hp
  have h2 := List.all_eq_true.mp h p hp
  rw [Bool.and_eq_true] at h2
  exact bne_iff_ne.mp h2.1

theorem specAvoidsId_operand (u : Doc) (h : specAvoidsId u = true) (p : String × Value)
    (hp : p ∈ u) (hrec : recognizedOps.contains p.1 = true) (updates : List (String × Value))
    (hop : p.2 = Value.vdoc updates) : ∀ q ∈ updates, q.1 ≠ "_id" := by
  intro q hq
  have h2 := List.all_eq_true.mp h p hp
  rw [Bool.and_eq_true] at h2
  have h4 := h2.2
  unfold operandAvoidsId at h4
  by_cases hun : (p.1 == "$unset") = true
  · rw [if_pos hun, hop] at h4
    exact bne_iff_ne.mp (List.all_eq_true.mp h4 q hq)
  · rw [if_neg hun, if_pos hrec, hop] at h4
    exact bne_iff_ne.mp (List.all_eq_true.mp h4 q hq)

theorem specAvoidsId_unset_arr (u : Doc) (h : specAvoidsId u = true) (p : String × Value)
    (hp : p ∈ u) (hun : (p.1 == "$unset") = true) (items : List Value)
    (hop : p.2 = Value.varr items) : ∀ w ∈ items, Value.beq w (.vstr "_id") = false := by
  intro w hw
  have h2 := List.all_eq_true.mp h p hp
  rw [Bool.and_eq_true] at h2
  have h4 := h2.2
  unfold operandAvoidsId at h4
  rw [if_pos hun, hop] at h4
  have h5 := List.all_eq_true.mp h4 w hw
  rw [Bool.not_eq_true'] at h5
  exact h5

theorem specAvoidsId_tail (p : String × Value) (u : Doc)
    (h : specAvoidsId (p :: u) = true) : specAvoidsId u = true := by
  simp only [specAvoidsId, List.all_cons, Bool.and_eq_true] at h ⊢
  exact h.2

theorem applyUpdateAux_preserves (orig : Doc) (horig : specAvoidsId orig = true) :
    ∀ (spec : Doc) (d d2 : Doc), specAvoidsId spec = true →
      applyUpdateAux orig d spec = some d2 → getField d2 "_id" = getField d "_id" := by
  intro spec
  induction spec with
  | nil =>
    intro d d2 _ h
    cases h
    rfl
  | cons hd tl ih =>
    intro d d2 hav h
    simp only [applyUpdateAux] at h
    by_cases hrec : recognizedOps.contains hd.1 = true
    · rw [if_pos hrec] at h
      cases hop : applyOperator d hd.1 hd.2 with
      | none => rw [hop] at h; cases h
      | some dmid =>
        rw [hop] at h
        simp only [Option.some_bind] at h
        rw [ih dmid d2 (specAvoidsId_tail hd tl hav) h]
        exact applyOperator_preserves d hd.1 hd.2 "_id" dmid hop
          (fun u hu => specAvoidsId_operand (hd :: tl) hav hd (List.mem_cons_self _ _) hrec u hu)
          (fun hu items hitems => specAvoidsId_unset_arr (hd :: tl) hav hd
            (List.mem_cons_self _ _) (by rw [hu]; rfl) items hitems)
          singleton_char_ne_id
    · rw [if_neg hrec] at h
      cases h
      exact foldl_setField_preserves orig "_id" (specAvoidsId_keys orig horig) d

theorem apply_update_preserves_id (d u d2 : Doc) (h : specAvoidsId u = true)
    (ha : apply_update d u = some d2) : getField d2 "_id" = getField d "_id" :=
  applyUpdateAux_preserves u h u d d2 h ha

/-- The identifier invariant on a raw document map. -/
def docsInv (l : List (String × Doc)) : Prop :=
  (∀ p ∈ l, getField p.2 "_id" = some (.vstr p.1)) ∧ (l.map Prod.fst).Nodup

theorem docsInv_assocSet (l : List (String × Doc)) (k : String) (v : Doc)
    (h : docsInv l) (hv : getField v "_id" = some (.vstr k)) : docsInv (assocSet l k v) := by
  constructor
  · intro p hp
    rcases mem_assocSet l k v p hp with h1 | h1
    · rw [h1]; exact hv
    · exact h.1 p h1
  · by_cases hk : k ∈ l.map Prod.fst
    · rw [map_fst_assocSet_mem l k v hk]
      exact h.2
    · rw [map_fst_assocSet_not_mem l k v hk]
      refine List.Nodup.append h.2 (List.nodup_singleton k) ?_
      intro a ha hb
      rw [List.mem_singleton.mp hb] at ha
      exact hk ha

theorem docsInv_sublist (l l2 : List (String × Doc)) (h : docsInv l) (hs : l2.Sublist l) :
    docsInv l2 :=
  ⟨fun p hp => h.1 p (hs.subset hp), (hs.map Prod.fst).nodup h.2⟩

theorem docsInv_insert_one (c : MemoryCollection) (d : Doc) (i : String)
    (h : docsInv c.documents) : docsInv (outState (insert_one c d i)).documents := by
  unfold insert_one
  by_cases hcol : c.unique_indexes.any (fun field =>
      match getField (setField d "_id" (.vstr i)) field with
      | some value => c.documents.any (fun p => Value.beq (pyGet p.2 field) value)
      | none => false) = true
  · rw [if_pos hcol]
    exact h
  · rw [if_neg hcol]
    exact docsInv_assocSet c.documents i _ h (getField_setField_self d "_id" (.vstr i))

theorem docsInv_updateOneLoop (c : MemoryCollection) (f u : Doc)
    (hu : specAvoidsId u = true) (hc : docsInv c.documents) :
    ∀ l : List (String × Doc), (∀ p ∈ l, getField p.2 "_id" = some (.vstr p.1)) →
      docsInv (outState (updateOneLoop c f u l)).documents := by
  intro l
  induction l with
  | nil => intro _; exact hc
  | cons hd tl ih =>
    intro hl
    by_cases hm : matches_filter hd.2 f = true
    · cases hap : apply_update hd.2 u with
      | none =>
        simp only [updateOneLoop, hm, if_true, hap]
        exact hc
      | some updated =>
        by_cases hviol : uniqueViolation c hd.1 hd.2 updated = true
        · simp only [updateOneLoop, hm, if_true, hap, hviol]
          exact hc
        · simp only [updateOneLoop, hm, if_true, hap, hviol, Bool.false_eq_true, if_false]
          refine docsInv_assocSet c.documents hd.1 updated hc ?_
          rw [apply_update_preserves_id hd.2 u updated hu hap]
          exact hl hd (List.mem_cons_self _ _)
    · simp only [updateOneLoop, hm, Bool.false_eq_true, if_false]
      exact ih (fun p hp => hl p (List.mem_cons_of_mem _ hp))

theorem docsInv_updateManyLoop (f u : Doc) (hu : specAvoidsId u = true) :
    ∀ (l : List (String × Doc)) (cur : MemoryCollection) (m md : Nat),
      (∀ p ∈ l, getField p.2 "_id" = some (.vstr p.1)) → docsInv cur.documents →
      docsInv (outState (updateManyLoop f u l cur m md)).documents := by
  intro l
  induction l with
  | nil => intro cur m md _ hcur; exact hcur
  | cons hd tl ih =>
    intro cur m md hl hcur
    by_cases hm : matches_filter hd.2 f = true
    · cases hap : apply_update hd.2 u with
      | none =>
        simp only [updateManyLoop, hm, if_true, hap]
        exact hcur
      | some updated =>
        by_cases hviol : uniqueViolation cur hd.1 hd.2 updated = true
        · simp only [updateManyLoop, hm, if_true, hap, hviol]
          exact hcur
        · simp only [updateManyLoop, hm, if_true, hap, hviol, Bool.false_eq_true, if_false]
          refine ih _ _ _ (fun p hp => hl p (List.mem_cons_of_mem _ hp)) ?_
          refine docsInv_assocSet cur.documents hd.1 updated hcur ?_
          rw [apply_update_preserves_id hd.2 u updated hu hap]
          exact hl hd (List.mem_cons_self _ _)
    · simp only [updateManyLoop, hm, Bool.false_eq_true, if_false]
      exact ih _ _ _ (fun p hp => hl p (List.mem_cons_of_mem _ hp)) hcur

theorem IdInv_eq_docsInv (c : MemoryCollection) : IdInv c = docsInv c.documents := rfl

theorem applyOp_ins (c : MemoryCollection) (d : Doc) (i : String) :
    applyOp c (.ins d i) = outState (insert_one c d i) := by
  cases h2 : insert_one c d i <;> simp [applyOp, outState, h2]

theorem applyOp_upd1 (c : MemoryCollection) (f u : Doc) :
    applyOp c (.upd1 f u) = outState (updateOneLoop c f u c.documents) := by
  cases h2 : updateOneLoop c f u c.documents <;> simp [applyOp, outState, update_one, h2]

theorem applyOp_updN (c : MemoryCollection) (f u : Doc) :
    applyOp c (.updN f u) = outState (updateManyLoop f u c.documents c 0 0) := by
  cases h2 : updateManyLoop f u c.documents c 0 0 <;> simp [applyOp, outState, update_many, h2]

theorem IdInv_applyOp (c : MemoryCollection) (op : Op) (h : IdInv c)
    (hop : op.avoidsId = true) : IdInv (applyOp c op) := by
  have hdocs : docsInv c.documents := h
  cases op with
  | ins d i =>
    rw [IdInv_eq_docsInv, applyOp_ins]
    exact docsInv_insert_one c d i hdocs
  | upd1 f u =>
    rw [IdInv_eq_docsInv, applyOp_upd1]
    exact docsInv_updateOneLoop c f u hop hdocs c.documents hdocs.1
  | updN f u =>
    rw [IdInv_eq_docsInv, applyOp_updN]
    exact docsInv_updateManyLoop f u hop c.documents c 0 0 hdocs.1 hdocs
  | del1 f =>
    rw [IdInv_eq_docsInv]
    show docsInv (delete_one c f).2.documents
    exact docsInv_sublist c.documents _ hdocs (deleteOneLoop_sublist f c.documents)
  | delN f =>
    rw [IdInv_eq_docsInv]
    show docsInv (delete_many c f).2.documents
    exact docsInv_sublist c.documents _ hdocs
      (foldl_assocRemove_sublist _ c.documents)

theorem IdInv_runOps (c : MemoryCollection) (ops : List Op) (h : IdInv c)
    (hops : ∀ op ∈ ops, op.avoidsId = true) : IdInv (runOps c ops) := by
  induction ops generalizing c with
  | nil => exact h
  | cons hd tl ih =>
    exact ih (applyOp c hd) (IdInv_applyOp c hd h (hops hd (List.mem_cons_self _ _)))
      (fun op hop => hops op (List.mem_cons_of_mem _ hop))

theorem stableIns_perm (le : Doc → Doc → Bool) (a : Doc) (l : List Doc) :
    (stableIns le a l).Perm (a :: l) := by
  induction l with
  | nil => simp [stableIns]
  | cons b tl ih =>
    simp only [stableIns]
    by_cases h : le a b = true
    · rw [if_pos h]
    · rw [if_neg h]
      exact (ih.cons b).trans (List.Perm.swap a b tl)

theorem stableSort_perm (le : Doc → Doc → Bool) (l : List Doc) :
    (stableSort le l).Perm l := by
  induction l with
  | nil => simp [stableSort]
  | cons b tl ih =>
    exact (stableIns_perm le b (stableSort le tl)).trans (ih.cons b)

theorem stableIns_pairwise (le : Doc → Doc → Bool) (P : Doc → Prop)
    (total : ∀ x y, P x → P y → le x y = true ∨ le y x = true)
    (htrans : ∀ x y z, P x → P y → P z → le x y = true → le y z = true → le x z = true)
    (a : Doc) (ha : P a) :
    ∀ l : List Doc, (∀ x ∈ l, P x) → l.Pairwise (fun x y => le x y = true) →
      (stableIns le a l).Pairwise (fun x y => le x y = true) := by
  intro l
  induction l with
  | nil => intro _ _; simp [stableIns]
  | cons b tl ih =>
    intro hP hpw
    have hPb : P b := hP b (List.mem_cons_self _ _)
    have hPtl : ∀ x ∈ tl, P x := fun x hx => hP x (List.mem_cons_of_mem _ hx)
    rcases List.pairwise_cons.mp hpw with ⟨hb, htl⟩
    simp only [stableIns]
    by_cases h : le a b = true
    · rw [if_pos h]
      refine List.pairwise_cons.mpr ⟨?_, hpw⟩
      intro z hz
      rcases List.mem_cons.mp hz with h2 | h2
      · rw [h2]; exact h
      · exact htrans a b z ha hPb (hPtl z h2) h (hb z h2)
    · rw [if_neg h]
      have hba : le b a = true := by
        rcases total a b ha hPb with h2 | h2
        · exact absurd h2 h
        · exact h2
      refine List.pairwise_cons.mpr ⟨?_, ih hPtl htl⟩
      intro z hz
      rcases List.mem_cons.mp ((stableIns_perm le a tl).mem_iff.mp hz) with h2 | h2
      · rw [h2]; exact hba
      · exact hb z h2

theorem stableSort_pairwise (le : Doc → Doc → Bool) (P : Doc → Prop)
    (total : ∀ x y, P x → P y → le x y = true ∨ le y x = true)
    (htrans : ∀ x y z, P x → P y → P z → le x y = true → le y z = true → le x z = true) :
    ∀ l : List Doc, (∀ x ∈ l, P x) →
      (stableSort le l).Pairwise (fun x y => le x y = true) := by
  intro l
  induction l with
  | nil => intro _; simp [stableSort]
  | cons b tl ih =>
    intro hP
    have hPsorted : ∀ x ∈ stableSort le tl, P x := fun x hx =>
      hP x (List.mem_cons_of_mem _ ((stableSort_perm le tl).mem_iff.mp hx))
    exact stableIns_pairwise le P total htrans b (hP b (List.mem_cons_self _ _))
      (stableSort le tl) hPsorted (ih (fun x hx => hP x (List.mem_cons_of_mem _ hx)))

theorem insert_one_unfold (c : MemoryCollection) (d : Doc) (i : String) :
    insert_one c d i =
      if c.unique_indexes.any (fun field =>
          match getField (setField d "_id" (.vstr i)) field with
          | some value => c.documents.any (fun p => Value.beq (pyGet p.2 field) value)
          | none => false) then
        .error ("Duplicate key error", c)
      else
        .ok (⟨i⟩,
          { c with
            documents := assocSet c.documents i (setField d "_id" (.vstr i))
            indexes := c.indexes.map (fun p =>
              if hasField (setField d "_id" (.vstr i)) p.1 then
                (p.1, valueSetAdd p.2 (pyGet (setField d "_id" (.vstr i)) p.1)) else p) }) := rfl

/-- C1 counterexample.  A unique index on `k` and a single stored document
that has no `k` field at all: inserting `{k: null}` nevertheless raises the
duplicate-key ValueError, because the scan reads the absent field through
`dict.get`, which returns None, and `None == None` holds.  The claim
demands this insert to succeed, since no stored document holds any value
for `k`, let alone one equal to null. -/
theorem C1_counterexample :
    insert_one ⟨"c", [("A", [("x", .vint 1), ("_id", .vstr "A")])], [], ["k"]⟩
      [("k", .vnull)] "B"
      = .error ("Duplicate key error",
          ⟨"c", [("A", [("x", .vint 1), ("_id", .vstr "A")])], [], ["k"]⟩) ∧
    (MemoryCollection.documents
        ⟨"c", [("A", [("x", .vint 1), ("_id", .vstr "A")])], [], ["k"]⟩).all
      (fun p => !hasField p.2 "k") = true :=
  ⟨rfl, rfl⟩

/-- C1 amended.  For a collection whose unique indexes are exactly `{k}`
with `k` not the reserved `_id` field, and a fresh identifier: inserting a
document `d` containing `k` fails with the duplicate-key error — leaving
the collection exactly as it was — if and only if some stored document
reads equal to `d[k]` on `k` through `dict.get`, where an absent field
reads as null; otherwise the insert succeeds, returns the fresh
identifier, and appends exactly the one new document (`d` plus
`_id`), growing the document count by one. -/
theorem C1_insert_unique (c : MemoryCollection) (d : Doc) (k : String) (v : Value)
    (fid : String) (hu : c.unique_indexes = [k]) (hk : k ≠ "_id")
    (hd : getField d k = some v) (hf : ∀ p ∈ c.documents, p.1 ≠ fid) :
    (c.documents.any (fun p => Value.beq (pyGet p.2 k) v) = true →
      insert_one c d fid = .error ("Duplicate key error", c)) ∧
    (c.documents.any (fun p => Value.beq (pyGet p.2 k) v) = false →
      ∃ c2 : MemoryCollection,
        insert_one c d fid = .ok (⟨fid⟩, c2) ∧
        c2.documents = c.documents ++ [(fid, setField d "_id" (.vstr fid))] ∧
        c2.documents.length = c.documents.length + 1 ∧
        c2.unique_indexes = c.unique_indexes) := by
  have hcond : (c.unique_indexes.any (fun field =>
      match getField (setField d "_id" (.vstr fid)) field with
      | some value => c.documents.any (fun p => Value.beq (pyGet p.2 field) value)
      | none => false)) = c.documents.any (fun p => Value.beq (pyGet p.2 k) v) := by
    rw [hu]
    simp only [List.any_cons, List.any_nil, Bool.or_false]
    rw [getField_setField_ne d "_id" k (.vstr fid) hk, hd]
  constructor
  · intro hcol
    rw [insert_one_unfold, hcond, hcol]
    simp
  · intro hcol
    rw [insert_one_unfold, hcond, hcol]
    simp only [Bool.false_eq_true, if_false]
    refine ⟨_, rfl, ?_, ?_, rfl⟩
    · exact assocSet_of_not_mem c.documents fid _ hf
    · rw [assocSet_of_not_mem c.documents fid _ hf]
      simp

/-- C1 witness: inserting `{k: 1}` into an empty collection with a unique
index on `k` succeeds with the fresh identifier and one stored document. -/
theorem C1_insert_unique_witness :
    (("k" : String) ≠ "_id") ∧
    (((⟨"c", [], [], ["k"]⟩ : MemoryCollection).documents.any
        (fun p => Value.beq (pyGet p.2 "k") (.vint 1)) = false) →
      ∃ c2 : MemoryCollection,
        insert_one (⟨"c", [], [], ["k"]⟩ : MemoryCollection) [("k", .vint 1)] "A"
          = .ok (⟨"A"⟩, c2) ∧
        c2.documents = (⟨"c", [], [], ["k"]⟩ : MemoryCollection).documents ++
          [("A", setField [("k", .vint 1)] "_id" (.vstr "A"))] ∧
        c2.documents.length =
          (⟨"c", [], [], ["k"]⟩ : MemoryCollection).documents.length + 1 ∧
        c2.unique_indexes = (⟨"c", [], [], ["k"]⟩ : MemoryCollection).unique_indexes) :=
  ⟨by decide,
    (C1_insert_unique ⟨"c", [], [], ["k"]⟩ [("k", .vint 1)] "k" (.vint 1) "A"
      rfl (by decide) rfl (by simp)).2⟩

theorem updateOneLoop_error_of_viol (c : MemoryCollection) (f u : Doc) (i : String)
    (d d2 : Doc) (post : List (String × Doc)) (hm : matches_filter d f = true)
    (hap : apply_update d u = some d2) (hv : uniqueViolation c i d d2 = true) :
    ∀ pre : List (String × Doc), (∀ p ∈ pre, matches_filter p.2 f = false) →
      updateOneLoop c f u (pre ++ (i, d) :: post) = .error ("Duplicate key error", c) := by
  intro pre
  induction pre with
  | nil =>
    intro _
    simp only [List.nil_append, updateOneLoop, hm, if_true, hap, hv]
  | cons hd tl ih =>
    intro hpre
    have h0 : matches_filter hd.2 f = false := hpre hd (List.mem_cons_self _ _)
    simp only [List.cons_append, updateOneLoop, h0, Bool.false_eq_true, if_false]
    exact ih (fun p hp => hpre p (List.mem_cons_of_mem _ hp))

theorem updateManyLoop_error_frame (f u : Doc) :
    ∀ (l : List (String × Doc)) (cur : MemoryCollection) (m md : Nat) (e : String)
      (s2 : MemoryCollection),
      (∀ p ∈ l, p.1 ∈ cur.documents.map Prod.fst) →
      updateManyLoop f u l cur m md = .error (e, s2) →
      s2.documents.map Prod.fst = cur.documents.map Prod.fst ∧ s2.indexes = cur.indexes ∧
      s2.unique_indexes = cur.unique_indexes ∧ s2.collection_name = cur.collection_name := by
  intro l
  induction l with
  | nil =>
    intro cur m md e s2 _ h
    simp [updateManyLoop] at h
  | cons hd tl ih =>
    intro cur m md e s2 hkeys h
    by_cases hm : matches_filter hd.2 f = true
    · cases hap : apply_update hd.2 u with
      | none =>
        simp only [updateManyLoop, hm, if_true, hap] at h
        rcases Prod.mk.injEq .. ▸ (Except.error.injEq .. ▸ h) with ⟨-, h2⟩
        rw [← h2]
        exact ⟨rfl, rfl, rfl, rfl⟩
      | some d2 =>
        by_cases hv : uniqueViolation cur hd.1 hd.2 d2 = true
        · simp only [updateManyLoop, hm, if_true, hap, hv] at h
          rcases Prod.mk.injEq .. ▸ (Except.error.injEq .. ▸ h) with ⟨-, h2⟩
          rw [← h2]
          exact ⟨rfl, rfl, rfl, rfl⟩
        · simp only [updateManyLoop, hm, if_true, hap, hv, Bool.false_eq_true, if_false] at h
          have hmemkeys : hd.1 ∈ cur.documents.map Prod.fst :=
            hkeys hd (List.mem_cons_self _ _)
          have hmap := map_fst_assocSet_mem cur.documents hd.1 d2 hmemkeys
          have ihres := ih { cur with documents := assocSet cur.documents hd.1 d2 }
            (m + 1) (md + if Value.beqFields d2 hd.2 then 0 else 1) e s2
            (fun p hp => by
              show p.1 ∈ (assocSet cur.documents hd.1 d2).map Prod.fst
              rw [hmap]
              exact hkeys p (List.mem_cons_of_mem _ hp)) h
          refine ⟨?_, ihres.2.1, ihres.2.2.1, ihres.2.2.2⟩
          rw [ihres.1]
          exact hmap
    · simp only [updateManyLoop, hm, Bool.false_eq_true, if_false] at h
      exact ih cur m md e s2 (fun p hp => hkeys p (List.mem_cons_of_mem _ hp)) h

/-- C2 counterexample.  Two documents match the filter; updating the first
to `u = 9` succeeds and is committed, updating the second to `u = 9` then
collides with the freshly committed value and raises — but the error
leaves the first document's committed update in place: the collection
state carried out of the raise differs from the state before the call, so
update_many is not atomic across documents as the claim demands. -/
theorem C2_counterexample :
    update_many ⟨"c", [("A", [("m", .vint 1), ("u", .vint 1), ("_id", .vstr "A")]),
        ("B", [("m", .vint 1), ("u", .vint 5), ("_id", .vstr "B")])], [], ["u"]⟩
      [("m", .vint 1)] [("$set", .vdoc [("u", .vint 9)])]
      = .error ("Duplicate key error",
          ⟨"c", [("A", [("m", .vint 1), ("u", .vint 9), ("_id", .vstr "A")]),
            ("B", [("m", .vint 1), ("u", .vint 5), ("_id", .vstr "B")])], [], ["u"]⟩) ∧
    getField [("m", Value.vint 1), ("u", Value.vint 9), ("_id", Value.vstr "A")] "u"
      = some (.vint 9) ∧
    getField [("m", Value.vint 1), ("u", Value.vint 1), ("_id", Value.vstr "A")] "u"
      = some (.vint 1) ∧
    some (Value.vint 9) ≠ some (Value.vint 1) := by
  refine ⟨rfl, rfl, rfl, ?_⟩
  intro h
  have h2 : Value.vint 9 = Value.vint 1 := Option.some.inj h
  have h3 : (9 : Int) = 1 := Value.vint.inj h2
  exact absurd h3 (by decide)

/-- C2 amended.  On a unique-index collision, update_one raises the
duplicate-key error with the collection exactly as it was before the call
(the scan precedes the commit); update_many also raises, but the updates
it already committed to earlier matching documents remain — there is no
atomicity across documents.  What any raising update_many does preserve is
the document-id sequence and the index registries. -/
theorem C2_update_abort :
    (∀ (c : MemoryCollection) (f u : Doc) (pre : List (String × Doc)) (i : String)
        (d d2 : Doc) (post : List (String × Doc)),
      c.documents = pre ++ (i, d) :: post →
      (∀ p ∈ pre, matches_filter p.2 f = false) →
      matches_filter d f = true →
      apply_update d u = some d2 →
      uniqueViolation c i d d2 = true →
      update_one c f u = .error ("Duplicate key error", c)) ∧
    (∀ (c : MemoryCollection) (f u : Doc) (e : String) (s2 : MemoryCollection),
      update_many c f u = .error (e, s2) →
      s2.documents.map Prod.fst = c.documents.map Prod.fst ∧
      s2.indexes = c.indexes ∧ s2.unique_indexes = c.unique_indexes ∧
      s2.collection_name = c.collection_name) := by
  constructor
  · intro c f u pre i d d2 post hdocs hpre hm hap hv
    show updateOneLoop c f u c.documents = .error ("Duplicate key error", c)
    rw [hdocs]
    exact updateOneLoop_error_of_viol c f u i d d2 post hm hap hv pre hpre
  · intro c f u e s2 h
    exact updateManyLoop_error_frame f u c.documents c 0 0 e s2 (fun p hp =>
      List.mem_map_of_mem Prod.fst hp) h

/-- C2 witness: a one-document prefix-free instance of the update_one
abort, and the update_many error of the counterexample state, instantiate
both halves. -/
theorem C2_update_abort_witness :
    (update_one ⟨"c", [("A", [("u", .vint 1), ("_id", .vstr "A")]),
        ("B", [("u", .vint 5), ("_id", .vstr "B")])], [], ["u"]⟩
      [("u", .vint 1)] [("$set", .vdoc [("u", .vint 5)])]
      = .error ("Duplicate key error",
          ⟨"c", [("A", [("u", .vint 1), ("_id", .vstr "A")]),
            ("B", [("u", .vint 5), ("_id", .vstr "B")])], [], ["u"]⟩)) ∧
    ((⟨"c", [("A", [("m", .vint 1), ("u", .vint 9), ("_id", .vstr "A")]),
        ("B", [("m", .vint 1), ("u", .vint 5), ("_id", .vstr "B")])], [], ["u"]⟩ :
        MemoryCollection).documents.map Prod.fst
      = (⟨"c", [("A", [("m", .vint 1), ("u", .vint 1), ("_id", .vstr "A")]),
          ("B", [("m", .vint 1), ("u", .vint 5), ("_id", .vstr "B")])], [], ["u"]⟩ :
          MemoryCollection).documents.map Prod.fst) := by
  constructor
  · exact C2_update_abort.1 ⟨"c", [("A", [("u", .vint 1), ("_id", .vstr "A")]),
        ("B", [("u", .vint 5), ("_id", .vstr "B")])], [], ["u"]⟩
      [("u", .vint 1)] [("$set", .vdoc [("u", .vint 5)])]
      [] "A" [("u", .vint 1), ("_id", .vstr "A")]
      [("u", .vint 5), ("_id", .vstr "A")] [("B", [("u", .vint 5), ("_id", .vstr "B")])]
      rfl (by simp) rfl rfl rfl
  · exact (C2_update_abort.2 ⟨"c", [("A", [("m", .vint 1), ("u", .vint 1), ("_id", .vstr "A")]),
        ("B", [("m", .vint 1), ("u", .vint 5), ("_id", .vstr "B")])], [], ["u"]⟩
      [("m", .vint 1)] [("$set", .vdoc [("u", .vint 9)])] "Duplicate key error"
      ⟨"c", [("A", [("m", .vint 1), ("u", .vint 9), ("_id", .vstr "A")]),
        ("B", [("m", .vint 1), ("u", .vint 5), ("_id", .vstr "B")])], [], ["u"]⟩ rfl).1

/-- C3.  If the fresh uuid identifier `i` collides with no stored key and
no stored document's `_id` field (which is what uuid4 freshness gives),
then a successful `insert_one(d)` followed by `find_one({_id: i})` returns
exactly `d` with the identifier field `_id = i` written over it — the
stored clone itself, deeply equal to the input extended with its
identifier. -/
theorem C3_insert_find (c : MemoryCollection) (d : Doc) (i : String) (r : InsertOneResult)
    (c2 : MemoryCollection)
    (hfresh : ∀ p ∈ c.documents, p.1 ≠ i ∧ getField p.2 "_id" ≠ some (.vstr i))
    (h : insert_one c d i = .ok (r, c2)) :
    find_one c2 [("_id", .vstr i)] = some (setField d "_id" (.vstr i)) := by
  rw [insert_one_unfold] at h
  by_cases hcol : (c.unique_indexes.any (fun field =>
      match getField (setField d "_id" (.vstr i)) field with
      | some value => c.documents.any (fun p => Value.beq (pyGet p.2 field) value)
      | none => false)) = true
  · rw [if_pos hcol] at h
    cases h
  · rw [if_neg hcol] at h
    have h2 := Except.ok.inj h
    have hc2 : c2 = { c with
        documents := assocSet c.documents i (setField d "_id" (.vstr i))
        indexes := c.indexes.map (fun p =>
          if hasField (setField d "_id" (.vstr i)) p.1 then
            (p.1, valueSetAdd p.2 (pyGet (setField d "_id" (.vstr i)) p.1)) else p) } :=
      (congrArg Prod.snd h2).symm
    rw [hc2]
    show ((assocSet c.documents i (setField d "_id" (.vstr i))).find?
      (fun p => matches_filter p.2 [("_id", .vstr i)])).map (·.2) = _
    rw [assocSet_of_not_mem c.documents i _ (fun p hp => (hfresh p hp).1)]
    rw [List.find?_append]
    have hnone : c.documents.find? (fun p => matches_filter p.2 [("_id", .vstr i)]) = none := by
      rw [List.find?_eq_none]
      intro p hp hmatch
      exact (hfresh p hp).2 ((matches_filter_id_single p.2 i).mp hmatch)
    rw [hnone]
    have hmatch2 : matches_filter (setField d "_id" (.vstr i)) [("_id", .vstr i)] = true :=
      (matches_filter_id_single _ i).mpr (getField_setField_self d "_id" (.vstr i))
    simp [hmatch2]

/-- C3 witness: inserting `{x: 1}` into an empty collection under
identifier `"A"` and reading it back through `find_one({_id: "A"})`. -/
theorem C3_insert_find_witness :
    find_one (⟨"c", [("A", [("x", .vint 1), ("_id", .vstr "A")])], [], []⟩ : MemoryCollection)
      [("_id", .vstr "A")] = some (setField [("x", .vint 1)] "_id" (.vstr "A")) :=
  C3_insert_find ⟨"c", [], [], []⟩ [("x", .vint 1)] "A" ⟨"A"⟩
    ⟨"c", [("A", [("x", .vint 1), ("_id", .vstr "A")])], [], []⟩
    (by simp) rfl

/-- C4 counterexample.  `_apply_update` does not protect the reserved
identifier: `update_one({}, {"$set": {"_id": "B"}})` on the document
stored under key "A" rewrites its `_id` field from "A" to "B", so the
identifier of a stored document does change after insert, contradicting
the claim. -/
theorem C4_counterexample :
    update_one ⟨"c", [("A", [("_id", .vstr "A"), ("x", .vint 1)])], [], []⟩
      [] [("$set", .vdoc [("_id", .vstr "B")])]
      = .ok (⟨1, 1⟩, ⟨"c", [("A", [("_id", .vstr "B"), ("x", .vint 1)])], [], []⟩) ∧
    getField [("_id", Value.vstr "B"), ("x", Value.vint 1)] "_id" = some (.vstr "B") ∧
    getField [("_id", Value.vstr "A"), ("x", Value.vint 1)] "_id" = some (.vstr "A") ∧
    some (Value.vstr "B") ≠ some (Value.vstr "A") := by
  refine ⟨rfl, rfl, rfl, ?_⟩
  intro h
  exact absurd (Value.vstr.inj (Option.some.inj h)) (by decide)

/-- C4 amended.  As long as no update spec writes or removes the `_id`
field (no top-level `_id` key, no `_id` key inside a recognised operator's
dict operand, and no "_id" element inside a `$unset` list operand), every
sequence of insert/update/delete operations preserves the identifier
invariant: each stored document carries its storage key as its `_id`
field — so identifiers never change once assigned and the stored `_id`
values are pairwise distinct.  An update spec that does touch `_id`
(`$set` on it as in the counterexample, a merge containing it, or
`$unset` listing it) can break this. -/
theorem C4_id_invariant (c : MemoryCollection) (ops : List Op) (h1 : IdInv c)
    (h2 : ∀ op ∈ ops, op.avoidsId = true) :
    IdInv (runOps c ops) ∧
    ((runOps c ops).documents.map (fun p => getField p.2 "_id")).Nodup := by
  have hinv := IdInv_runOps c ops h1 h2
  refine ⟨hinv, ?_⟩
  have hmap : (runOps c ops).documents.map (fun p => getField p.2 "_id")
      = (runOps c ops).documents.map (fun p => some (Value.vstr p.1)) :=
    List.map_congr_left (fun p hp => hinv.1 p hp)
  rw [hmap]
  have hmap2 : (runOps c ops).documents.map (fun p => some (Value.vstr p.1))
      = ((runOps c ops).documents.map Prod.fst).map (fun k => some (Value.vstr k)) := by
    rw [List.map_map]
    rfl
  rw [hmap2]
  refine List.Nodup.map ?_ hinv.2
  intro a b hab
  exact Value.vstr.inj (Option.some.inj hab)

/-- C4 witness: an insert followed by a `$set` on a non-identifier field
keeps the invariant on the resulting collection. -/
theorem C4_id_invariant_witness :
    IdInv (runOps ⟨"c", [], [], []⟩
      [.ins [("x", .vint 1)] "A", .upd1 [] [("$set", .vdoc [("x", .vint 2)])]]) ∧
    ((runOps (⟨"c", [], [], []⟩ : MemoryCollection)
      [.ins [("x", .vint 1)] "A", .upd1 [] [("$set", .vdoc [("x", .vint 2)])]]).documents.map
        (fun p => getField p.2 "_id")).Nodup :=
  C4_id_invariant ⟨"c", [], [], []⟩
    [.ins [("x", .vint 1)] "A", .upd1 [] [("$set", .vdoc [("x", .vint 2)])]]
    ⟨by simp, by simp⟩
    (by intro op hop
        rcases List.mem_cons.mp hop with h | h
        · rw [h]; rfl
        · rcases List.mem_cons.mp h with h2 | h2
          · rw [h2]; rfl
          · exact absurd h2 (List.not_mem_nil op))

theorem pySortLe_neg_int (f : String) (a b : Doc) (m n : Int)
    (ha : getField a f = some (.vint m)) (hb : getField b f = some (.vint n)) :
    pySortLe [(f, .vint (-1))] true a b = true ↔ m ≤ n := by
  have hka : sortKey [(f, .vint (-1))] a = [.vint (-m)] := by
    simp [sortKey, ha, Value.beq]
  have hkb : sortKey [(f, .vint (-1))] b = [.vint (-n)] := by
    simp [sortKey, hb, Value.beq]
  simp only [pySortLe, if_true, hka, hkb]
  simp only [keyListLe, Value.beq, Value.lt]
  by_cases h : (-n : Int) = -m
  · have h2 : m ≤ n := by omega
    simp [h, h2]
  · have hbeq : ((-n : Int) == -m) = false := by
      simp [h]
    simp only [hbeq, Bool.false_eq_true, if_false, decide_eq_true_eq]
    omega

/-- C5 counterexample.  Documents with integer field `a` equal to 1 and 2,
in that order, sorted by `{a: -1}`: the claim (sort on the plain value
tuple, then reverse the list) demands the exact reverse of the ascending
order, `[{a:2}, {a:1}]`.  The code instead negates numeric key components
and sorts with reverse=True, and the two flips cancel: it returns
`[{a:1}, {a:2}]`, the ascending order. -/
theorem C5_counterexample :
    aggApplyStage [[("a", .vint 1)], [("a", .vint 2)]] [("$sort", .vdoc [("a", .vint (-1))])]
      = [[("a", .vint 1)], [("a", .vint 2)]] ∧
    ([[("a", Value.vint 1)], [("a", Value.vint 2)]] : List Doc)
      ≠ [[("a", Value.vint 2)], [("a", Value.vint 1)]] := by
  refine ⟨rfl, ?_⟩
  intro h
  have h2 := List.cons.inj h
  exact absurd (Value.vint.inj (Prod.mk.inj (List.cons.inj h2.1).1).2) (by decide)

/-- C5 amended.  The sort key negates numeric components for direction −1
fields before comparing, and reverse=True reverses the comparison order
(stably), not the produced list.  For a single-field spec over an
integer-valued field the two negations cancel: direction −1 returns a
permutation of the input in ASCENDING field order — the same order as
direction 1, not its reverse. -/
theorem C5_sort_desc_int (docs : List Doc) (f : String)
    (h : ∀ d ∈ docs, ∃ n : Int, getField d f = some (.vint n)) :
    (aggApplyStage docs [("$sort", .vdoc [(f, .vint (-1))])]).Perm docs ∧
    (aggApplyStage docs [("$sort", .vdoc [(f, .vint (-1))])]).Pairwise
      (fun a b => ∀ m n : Int, getField a f = some (.vint m) →
        getField b f = some (.vint n) → m ≤ n) := by
  have hrev : ([(f, Value.vint (-1))].any (fun p => Value.beq p.2 (.vint (-1)))) = true := by
    simp [Value.beq]
  have hstage : aggApplyStage docs [("$sort", .vdoc [(f, .vint (-1))])]
      = stableSort (pySortLe [(f, .vint (-1))] true) docs := by
    rw [show aggApplyStage docs [("$sort", .vdoc [(f, .vint (-1))])]
        = stableSort (pySortLe [(f, .vint (-1))]
            ([(f, Value.vint (-1))].any (fun p => Value.beq p.2 (.vint (-1))))) docs from rfl,
      hrev]
  rw [hstage]
  have hperm := stableSort_perm (pySortLe [(f, .vint (-1))] true) docs
  refine ⟨hperm, ?_⟩
  have htotal : ∀ x y, (∃ n : Int, getField x f = some (.vint n)) →
      (∃ n : Int, getField y f = some (.vint n)) →
      pySortLe [(f, .vint (-1))] true x y = true ∨
      pySortLe [(f, .vint (-1))] true y x = true := by
    rintro x y ⟨mx, hx⟩ ⟨my, hy⟩
    rcases le_total mx my with h2 | h2
    · exact Or.inl ((pySortLe_neg_int f x y mx my hx hy).mpr h2)
    · exact Or.inr ((pySortLe_neg_int f y x my mx hy hx).mpr h2)
  have htrans : ∀ x y z, (∃ n : Int, getField x f = some (.vint n)) →
      (∃ n : Int, getField y f = some (.vint n)) →
      (∃ n : Int, getField z f = some (.vint n)) →
      pySortLe [(f, .vint (-1))] true x y = true →
      pySortLe [(f, .vint (-1))] true y z = true →
      pySortLe [(f, .vint (-1))] true x z = true := by
    rintro x y z ⟨mx, hx⟩ ⟨my, hy⟩ ⟨mz, hz⟩ h1 h2
    exact (pySortLe_neg_int f x z mx mz hx hz).mpr
      (((pySortLe_neg_int f x y mx my hx hy).mp h1).trans
        ((pySortLe_neg_int f y z my mz hy hz).mp h2))
  have hpw := stableSort_pairwise (pySortLe [(f, .vint (-1))] true)
    (fun d => ∃ n : Int, getField d f = some (.vint n)) htotal htrans docs h
  refine hpw.imp_of_mem ?_
  intro a b hma hmb hle m n ham hbn
  exact (pySortLe_neg_int f a b m n ham hbn).mp hle

/-- C5 witness: the two-document integer instance, in descending input
order, comes back ascending. -/
theorem C5_sort_desc_int_witness :
    (aggApplyStage [[("a", .vint 2)], [("a", .vint 1)]]
      [("$sort", .vdoc [("a", .vint (-1))])]).Perm [[("a", .vint 2)], [("a", .vint 1)]] ∧
    (aggApplyStage [[("a", .vint 2)], [("a", .vint 1)]]
      [("$sort", .vdoc [("a", .vint (-1))])]).Pairwise
      (fun a b => ∀ m n : Int, getField a "a" = some (.vint m) →
        getField b "a" = some (.vint n) → m ≤ n) :=
  C5_sort_desc_int [[("a", .vint 2)], [("a", .vint 1)]] "a"
    (by intro d hd
        rcases List.mem_cons.mp hd with h | h
        · exact ⟨2, by rw [h]; rfl⟩
        · rcases List.mem_cons.mp h with h2 | h2
          · exact ⟨1, by rw [h2]; rfl⟩
          · exact absurd h2 (List.not_mem_nil d))

/-- C6 evaluation at the failing inputs.  On the document
`{a:1, b:2, c:3, _id:"X"}`: the spec `{a:0, b:0}` is supposed to drop `a`
and `b`, but each exclusion entry copies "all other fields" into the
output, so the `a` pass copies `b` and the `b` pass copies `a` back — the
result keeps every field.  The spec `{_id:0}` is supposed to keep
`a, b, c`; the exclusion loop skips the `_id` entry entirely (its guard
requires the field not be `_id`), no field is ever copied, and the final
`_id` re-add is suppressed, so the result is the empty document. -/
theorem C6_project_eval :
    aggApplyStage [[("a", .vint 1), ("b", .vint 2), ("c", .vint 3), ("_id", .vstr "X")]]
      [("$project", .vdoc [("a", .vint 0), ("b", .vint 0)])]
      = [[("b", .vint 2), ("c", .vint 3), ("_id", .vstr "X"), ("a", .vint 1)]] ∧
    hasField [("b", Value.vint 2), ("c", Value.vint 3), ("_id", Value.vstr "X"),
      ("a", Value.vint 1)] "a" = true ∧
    hasField [("b", Value.vint 2), ("c", Value.vint 3), ("_id", Value.vstr "X"),
      ("a", Value.vint 1)] "b" = true ∧
    aggApplyStage [[("a", .vint 1), ("b", .vint 2), ("c", .vint 3), ("_id", .vstr "X")]]
      [("$project", .vdoc [("_id", .vint 0)])]
      = [([] : Doc)] :=
  ⟨rfl, rfl, rfl, rfl⟩

/-- C7.  The `$group` stage buckets by the `$team` field reference and
emits, in first-occurrence order, one document per group with the key
under `_id` and `{"$sum": 1}` counting the bucket: the spec's example
pipeline yields exactly `{_id:"Eng", count:2}` and `{_id:"Ops", count:1}`.
The second conjunct exercises a literal group key, `$sum` over a field
reference (non-numeric values skipped) and `$count`. -/
theorem C7_group_count :
    aggregate ⟨"c", [("1", [("team", .vstr "Eng")]), ("2", [("team", .vstr "Eng")]),
        ("3", [("team", .vstr "Ops")])], [], []⟩
      [[("$group", .vdoc [("_id", .vstr "$team"), ("count", .vdoc [("$sum", .vint 1)])])]]
      = [[("_id", .vstr "Eng"), ("count", .vint 2)], [("_id", .vstr "Ops"), ("count", .vint 1)]] ∧
    aggregate ⟨"c", [("1", [("n", .vint 1)]), ("2", [("n", .vint 2)]),
        ("3", [("n", .vstr "x")])], [], []⟩
      [[("$group", .vdoc [("_id", .vint 7), ("total", .vdoc [("$sum", .vstr "$n")]),
          ("k", .vdoc [("$count", .vstr "q")])])]]
      = [[("_id", .vint 7), ("total", .vint 3), ("k", .vint 3)]] :=
  ⟨rfl, rfl⟩

/-- C8 counterexample.  `ListCursor.__iter__` constructs a fresh generator
over the recorded slice on every call and never mutates the cursor; in
this pure model one iteration pass is `ListCursor.iterate`, and a second
`for` loop over the very same (unchanged) cursor runs `iterate` again.  A
one-document cursor therefore yields that document on the second pass
too — not the empty sequence the claim requires of an exhausted,
non-restartable cursor. -/
theorem C8_counterexample :
    (ListCursor.fromList [[("x", .vint 1)]]).iterate = [[("x", .vint 1)]] ∧
    (ListCursor.fromList [[("x", .vint 1)]]).iterate ≠ ([] : List Doc) :=
  ⟨rfl, fun h => List.cons_ne_nil _ _ ((rfl : (ListCursor.fromList
    [[("x", Value.vint 1)]]).iterate = [[("x", Value.vint 1)]]) ▸ h)⟩

/-- C8 amended.  A ListCursor is restartable: iteration never consumes it.
Every pass over the cursor yields the recorded `data[skip : skip+limit]`
slice, and `skip`/`limit` compose in either call order. -/
theorem C8_cursor_restartable (data : List Doc) (n m : Nat) :
    ((ListCursor.fromList data).skip n |>.limit m).iterate = (data.drop n).take m ∧
    ((ListCursor.fromList data).limit m |>.skip n).iterate = (data.drop n).take m ∧
    (ListCursor.fromList data).iterate = data := by
  refine ⟨rfl, rfl, ?_⟩
  simp [ListCursor.fromList, ListCursor.iterate]

/-- C9.  The `_apply_update` loop applies recognised operator keys in spec
order until it reaches the first unrecognised key; at that point it merges
the ENTIRE original spec verbatim over the document (`doc.update`) and
stops — so a mixed spec stores the operator keys themselves (e.g. the
literal field `"$set"`) on top of the operator applications already
performed. -/
theorem C9_merge_verbatim (d u : Doc)
    (h : u.any (fun p => !recognizedOps.contains p.1) = true) :
    apply_update d u =
      (applyOps d (u.takeWhile (fun p => recognizedOps.contains p.1))).map
        (fun d2 => u.foldl (fun acc p => setField acc p.1 p.2) d2) := by
  have haux : ∀ (spec : Doc) (dd : Doc),
      spec.any (fun p => !recognizedOps.contains p.1) = true →
      applyUpdateAux u dd spec =
        (applyOps dd (spec.takeWhile (fun p => recognizedOps.contains p.1))).map
          (fun d2 => u.foldl (fun acc p => setField acc p.1 p.2) d2) := by
    intro spec
    induction spec with
    | nil =>
      intro dd hh
      simp at hh
    | cons hd tl ih =>
      intro dd hh
      by_cases hrec : recognizedOps.contains hd.1 = true
      · have htl : tl.any (fun p => !recognizedOps.contains p.1) = true := by
          rw [List.any_cons, Bool.or_eq_true] at hh
          rcases hh with h1 | h1
          · rw [Bool.not_eq_true', hrec] at h1
            cases h1
          · exact h1
        rw [List.takeWhile_cons, if_pos hrec]
        simp only [applyUpdateAux, hrec, if_true]
        cases hop : applyOperator dd hd.1 hd.2 with
        | none =>
          simp only [hop, Option.none_bind]
          have : applyOps dd (hd :: tl.takeWhile (fun p => recognizedOps.contains p.1))
              = none := by
            simp only [applyOps, List.foldlM_cons, hop]
            rfl
          rw [this]
          rfl
        | some dmid =>
          simp only [hop, Option.some_bind]
          rw [ih dmid htl]
          have : applyOps dd (hd :: tl.takeWhile (fun p => recognizedOps.contains p.1))
              = applyOps dmid (tl.takeWhile (fun p => recognizedOps.contains p.1)) := by
            simp only [applyOps, List.foldlM_cons, hop]
            rfl
          rw [this]
      · rw [List.takeWhile_cons, if_neg hrec]
        simp only [applyUpdateAux, hrec, Bool.false_eq_true, if_false]
        rfl
  exact haux u d h

/-- C9 witness: the mixed spec `{"$set": {b: 2}, c: 3}` on `{a: 1}` first
applies the `$set`, then merges the whole spec, leaving the literal field
`"$set"` (holding its operand dict) and `c` on the document. -/
theorem C9_merge_verbatim_witness :
    ([("$set", Value.vdoc [("b", Value.vint 2)]), ("c", Value.vint 3)].any
      (fun p => !recognizedOps.contains p.1) = true) ∧
    apply_update [("a", .vint 1)] [("$set", .vdoc [("b", .vint 2)]), ("c", .vint 3)] =
      (applyOps [("a", .vint 1)]
          ([("$set", Value.vdoc [("b", Value.vint 2)]), ("c", Value.vint 3)].takeWhile
            (fun p => recognizedOps.contains p.1))).map
        (fun d2 => [("$set", Value.vdoc [("b", Value.vint 2)]), ("c", Value.vint 3)].foldl
          (fun acc p => setField acc p.1 p.2) d2) :=
  ⟨rfl, C9_merge_verbatim [("a", .vint 1)]
    [("$set", .vdoc [("b", .vint 2)]), ("c", .vint 3)] rfl⟩

theorem assocSet_append_left_free {β : Type} (pre : List (String × β)) (i : String) (v : β)
    (l : List (String × β)) (h : ∀ p ∈ pre, p.1 ≠ i) :
    assocSet (pre ++ l) i v = pre ++ assocSet l i v := by
  induction pre with
  | nil => simp
  | cons hd tl ih =>
    simp only [List.cons_append, assocSet]
    rw [if_neg (by simpa using h hd (List.mem_cons_self _ _))]
    simp only [List.append_eq]
    rw [ih (fun p hp => h p (List.mem_cons_of_mem _ hp))]

theorem updateOneLoop_ok_frame (c : MemoryCollection) (f u : Doc)
    (hnd : (c.documents.map Prod.fst).Nodup) :
    ∀ (l pre : List (String × Doc)), c.documents = pre ++ l →
      (∀ p ∈ pre, matches_filter p.2 f = false) →
      ∀ (r : UpdateResult) (c2 : MemoryCollection),
      updateOneLoop c f u l = .ok (r, c2) →
      (r = ⟨0, 0⟩ ∧ c2 = c ∧ ∀ p ∈ l, matches_filter p.2 f = false) ∨
      (∃ pre2 i d d2 post, c.documents = pre2 ++ (i, d) :: post ∧
        (∀ p ∈ pre2, matches_filter p.2 f = false) ∧ matches_filter d f = true ∧
        apply_update d u = some d2 ∧
        c2.documents = pre2 ++ (i, d2) :: post ∧ c2.indexes = c.indexes ∧
        c2.unique_indexes = c.unique_indexes ∧ c2.collection_name = c.collection_name ∧
        r.matched_count = 1) := by
  intro l
  induction l with
  | nil =>
    intro pre hsplit hpre r c2 h
    simp only [updateOneLoop] at h
    have h2 := Except.ok.inj h
    exact Or.inl ⟨(congrArg Prod.fst h2).symm, (congrArg Prod.snd h2).symm,
      fun p hp => absurd hp (List.not_mem_nil p)⟩
  | cons hd tl ih =>
    intro pre hsplit hpre r c2 h
    by_cases hm : matches_filter hd.2 f = true
    · cases hap : apply_update hd.2 u with
      | none =>
        simp only [updateOneLoop, hm, if_true, hap] at h
        exact Except.noConfusion h
      | some d2 =>
        by_cases hv : uniqueViolation c hd.1 hd.2 d2 = true
        · simp only [updateOneLoop, hm, if_true, hap, hv] at h
          exact Except.noConfusion h
        · simp only [updateOneLoop, hm, if_true, hap, hv, Bool.false_eq_true, if_false] at h
          have h2 := Except.ok.inj h
          have hr : r = ⟨1, if Value.beqFields d2 hd.2 then 0 else 1⟩ :=
            (congrArg Prod.fst h2).symm
          have hc2 : c2 = { c with documents := assocSet c.documents hd.1 d2 } :=
            (congrArg Prod.snd h2).symm
          have hfree : ∀ p ∈ pre, p.1 ≠ hd.1 := by
            intro p hp hpi
            have hnd2 : ((pre ++ hd :: tl).map Prod.fst).Nodup := hsplit ▸ hnd
            rw [List.map_append, List.nodup_append] at hnd2
            exact hnd2.2.2 (List.mem_map_of_mem Prod.fst hp)
              (by rw [hpi]; simp)
          refine Or.inr ⟨pre, hd.1, hd.2, d2, tl, by rw [hsplit], hpre, hm, hap, ?_,
            by rw [hc2], by rw [hc2], by rw [hc2], by rw [hr]⟩
          rw [hc2]
          show assocSet c.documents hd.1 d2 = pre ++ (hd.1, d2) :: tl
          rw [hsplit, assocSet_append_left_free pre hd.1 d2 (hd :: tl) hfree]
          have : assocSet (hd :: tl) hd.1 d2 = (hd.1, d2) :: tl := by
            show assocSet ((hd.1, hd.2) :: tl) hd.1 d2 = (hd.1, d2) :: tl
            simp [assocSet]
          rw [this]
    · simp only [updateOneLoop, hm, Bool.false_eq_true, if_false] at h
      have hsplit2 : c.documents = (pre ++ [hd]) ++ tl := by
        rw [hsplit, List.append_assoc]
        rfl
      have hpre2 : ∀ p ∈ pre ++ [hd], matches_filter p.2 f = false := by
        intro p hp
        rcases List.mem_append.mp hp with h1 | h1
        · exact hpre p h1
        · rw [List.mem_singleton.mp h1]
          exact Bool.not_eq_true _ ▸ hm
      rcases ih (pre ++ [hd]) hsplit2 hpre2 r c2 h with h1 | h1
      · exact Or.inl ⟨h1.1, h1.2.1, fun p hp => by
          rcases List.mem_cons.mp hp with h2 | h2
          · rw [h2]; exact Bool.not_eq_true _ ▸ hm
          · exact h1.2.2 p h2⟩
      · exact Or.inr h1

/-- C10.  update_one touches at most the first stored document (in
insertion order) that matches the filter.  On a successful call either no
document matched — the result is (0, 0) and the collection is exactly
unchanged — or the document map splits as prefix ++ match ++ suffix with
the prefix all non-matching, and the new map is identical except that the
matched slot now holds the updated document; the indexes, the unique-index
set, the collection name, and every other stored document are untouched,
and matched_count is 1. -/
theorem C10_update_one_frame (c : MemoryCollection) (f u : Doc) (r : UpdateResult)
    (c2 : MemoryCollection) (hnd : (c.documents.map Prod.fst).Nodup)
    (h : update_one c f u = .ok (r, c2)) :
    (r = ⟨0, 0⟩ ∧ c2 = c ∧ ∀ p ∈ c.documents, matches_filter p.2 f = false) ∨
    (∃ pre2 i d d2 post, c.documents = pre2 ++ (i, d) :: post ∧
      (∀ p ∈ pre2, matches_filter p.2 f = false) ∧ matches_filter d f = true ∧
      apply_update d u = some d2 ∧
      c2.documents = pre2 ++ (i, d2) :: post ∧ c2.indexes = c.indexes ∧
      c2.unique_indexes = c.unique_indexes ∧ c2.collection_name = c.collection_name ∧
      r.matched_count = 1) :=
  updateOneLoop_ok_frame c f u hnd c.documents [] rfl
    (fun p hp => absurd hp (List.not_mem_nil p)) r c2 h

/-- C10 witness: one stored document, matched by the empty filter and
updated by a `$set`; the theorem's hypotheses hold by computation. -/
theorem C10_update_one_frame_witness :
    ((⟨"c", [("A", [("x", .vint 1), ("_id", .vstr "A")])], [], []⟩ :
        MemoryCollection).documents.map Prod.fst).Nodup ∧
    (((⟨1, 1⟩ : UpdateResult) = ⟨0, 0⟩ ∧
      (⟨"c", [("A", [("x", .vint 2), ("_id", .vstr "A")])], [], []⟩ : MemoryCollection)
        = ⟨"c", [("A", [("x", .vint 1), ("_id", .vstr "A")])], [], []⟩ ∧
      ∀ p ∈ (⟨"c", [("A", [("x", .vint 1), ("_id", .vstr "A")])], [], []⟩ :
          MemoryCollection).documents, matches_filter p.2 [] = false) ∨
    (∃ pre2 i d d2 post,
      (⟨"c", [("A", [("x", .vint 1), ("_id", .vstr "A")])], [], []⟩ :
        MemoryCollection).documents = pre2 ++ (i, d) :: post ∧
      (∀ p ∈ pre2, matches_filter p.2 [] = false) ∧ matches_filter d [] = true ∧
      apply_update d [("$set", .vdoc [("x", .vint 2)])] = some d2 ∧
      (⟨"c", [("A", [("x", .vint 2), ("_id", .vstr "A")])], [], []⟩ :
        MemoryCollection).documents = pre2 ++ (i, d2) :: post ∧
      (⟨"c", [("A", [("x", .vint 2), ("_id", .vstr "A")])], [], []⟩ :
        MemoryCollection).indexes = (⟨"c", [("A", [("x", .vint 1), ("_id", .vstr "A")])],
          [], []⟩ : MemoryCollection).indexes ∧
      (⟨"c", [("A", [("x", .vint 2), ("_id", .vstr "A")])], [], []⟩ :
        MemoryCollection).unique_indexes = (⟨"c", [("A", [("x", .vint 1),
          ("_id", .vstr "A")])], [], []⟩ : MemoryCollection).unique_indexes ∧
      (⟨"c", [("A", [("x", .vint 2), ("_id", .vstr "A")])], [], []⟩ :
        MemoryCollection).collection_name = (⟨"c", [("A", [("x", .vint 1),
          ("_id", .vstr "A")])], [], []⟩ : MemoryCollection).collection_name ∧
      (⟨1, 1⟩ : UpdateResult).matched_count = 1)) :=
  ⟨by simp,
    C10_update_one_frame ⟨"c", [("A", [("x", .vint 1), ("_id", .vstr "A")])], [], []⟩
      [] [("$set", .vdoc [("x", .vint 2)])] ⟨1, 1⟩
      ⟨"c", [("A", [("x", .vint 2), ("_id", .vstr "A")])], [], []⟩ (by simp) rfl⟩
